import Mathlib

/-!
Verification of the cpdep C/C++ include-dependency analyzer.

This file gives a shallow embedding, in Lean, of the core of the program:
the scanner's file selection (src/file_collector.rs), the component
assigner and the heuristic include resolver (src/graph.rs), the publicness
pass (src/graph.rs), the header classifier, BFS shortest component path and
Tarjan SCC (src/cli.rs), and the linked-components aggregation
(src/graph.rs).  Paths are modelled as lists of characters; file and
component references are natural-number indices, as in the source (which
uses `usize` indices into parallel arrays).
-/

namespace Cpdep

/-- Shorthand turning a string literal into the character-list paths used
throughout the model. -/
def pstr (s : String) : List Char := s.toList

/-- Boolean test that `suf` is a suffix of `s` (Rust `str::ends_with`). -/
def endsWithP (s suf : List Char) : Bool := suf.isSuffixOf s

/-- Boolean substring test (Rust `str::contains` with a string pattern). -/
def listContains (hay needle : List Char) : Bool :=
  needle.isPrefixOf hay ||
    match hay with
    | [] => false
    | _ :: t => listContains t needle

/-- All proper suffixes of `p` that start right after a `/` character, in
left-to-right order of the slash (Rust `match_indices('/')` followed by
slicing at `idx + 1`). -/
def slashSuffixes : List Char → List (List Char)
  | [] => []
  | c :: rest => (if c = '/' then [rest] else []) ++ slashSuffixes rest

/-- The keys under which a file with path `p` is inserted into the suffix
index of `generate_file_links`: the whole path first, then the suffix after
each `/`. -/
def includeKeys (p : List Char) : List (List Char) := p :: slashSuffixes p

/-- A scanned source file: project-relative path plus the raw include
strings extracted from it (the `File` record of src/file_collector.rs). -/
structure SrcFile where
  path : List Char
  includePaths : List (List Char)
deriving DecidableEq

/-- Value list of the suffix index `path_to_files` at key `inc`: the file
indices are pushed in file order, and a file is pushed once for each of its
include keys matching `inc` (src/graph.rs, generate_file_links, first
loop).  The returned list is empty exactly when the `HashMap` lookup in the
source misses. -/
def suffixLookup (files : List SrcFile) (inc : List Char) : List Nat :=
  files.enum.flatMap (fun p =>
    (includeKeys p.2.path).filterMap (fun k => if k = inc then some p.1 else none))

/-- The candidates of `deps` kept for includer `i`: the source skips `d`
when `is_present_in_this_component && file_components[d] != file_components[i]`
(src/graph.rs lines 218-228). -/
def keptDeps (fc : Nat → Nat) (i : Nat) (deps : List Nat) : List Nat :=
  let present := deps.any (fun d => fc d == fc i)
  deps.filter (fun d => !(present && fc d != fc i))

/-- Edges contributed by one include occurrence `inc` of file `i`, as
`(from, to)` pairs in candidate order. -/
def occEdges (files : List SrcFile) (fc : Nat → Nat) (i : Nat) (inc : List Char) :
    List (Nat × Nat) :=
  (keptDeps fc i (suffixLookup files inc)).map (fun d => (i, d))

/-- Every `(from, to)` edge pushed by the double loop of
`generate_file_links`, in push order: files in index order, each file's
includes in order, each include's kept candidates in index-insertion
order. -/
def allEdges (files : List SrcFile) (fc : Nat → Nat) : List (Nat × Nat) :=
  files.enum.flatMap (fun p => p.2.includePaths.flatMap (occEdges files fc p.1))

/-- The vector `file_links[i].outgoing_links` after `generate_file_links`:
the pushes to it are exactly the `allEdges` entries with `from = i`, in
order. -/
def outgoingLinks (files : List SrcFile) (fc : Nat → Nat) (i : Nat) : List Nat :=
  ((allEdges files fc).filter (fun e => e.1 == i)).map (fun e => e.2)

/-- The vector `file_links[i].incoming_links` after `generate_file_links`:
the pushes to it are exactly the `allEdges` entries with `to = i`, in
order. -/
def incomingLinks (files : List SrcFile) (fc : Nat → Nat) (i : Nat) : List Nat :=
  ((allEdges files fc).filter (fun e => e.2 == i)).map (fun e => e.1)

/-- Filtering a flat map over an enumerated list by first component picks
out exactly the block generated at that index. -/
lemma enumFrom_flatMap_filter {α β : Type} (fst : β → Nat) (g : Nat → α → List β)
    (hg : ∀ j a e, e ∈ g j a → fst e = j) :
    ∀ (files : List α) (k i : Nat) (hi : i < files.length),
    ((files.enumFrom k).flatMap (fun p => g p.1 p.2)).filter (fun e => fst e == k + i) =
      g (k + i) (files.get ⟨i, hi⟩)
  | [], k, i, hi => by simp at hi
  | a :: t, k, 0, hi => by
    simp only [List.enumFrom, List.flatMap_cons, List.filter_append, Nat.add_zero]
    have h1 : (g k a).filter (fun e => fst e == k) = g k a := by
      apply List.filter_eq_self.mpr
      intro e he
      simp [hg k a e he]
    have h2 : ((t.enumFrom (k + 1)).flatMap (fun p => g p.1 p.2)).filter
        (fun e => fst e == k) = [] := by
      apply List.filter_eq_nil_iff.mpr
      intro e he
      obtain ⟨p, hp, hep⟩ := List.mem_flatMap.mp he
      have := hg p.1 p.2 e hep
      have hge : k + 1 ≤ p.1 := by
        have := List.mk_mem_enumFrom_iff_le_and_getElem?_sub.mp (by exact hp)
        omega
      simp only [this, beq_iff_eq]
      omega
    simp [h1, h2]
  | a :: t, k, i + 1, hi => by
    simp only [List.enumFrom, List.flatMap_cons, List.filter_append]
    have h1 : (g k a).filter (fun e => fst e == k + (i + 1)) = [] := by
      apply List.filter_eq_nil_iff.mpr
      intro e he
      simp only [hg k a e he, beq_iff_eq]
      omega
    have h2 := enumFrom_flatMap_filter fst g hg t (k + 1) i (by simpa using hi)
    have hkk : k + 1 + i = k + (i + 1) := by omega
    rw [hkk] at h2
    simp only [h1, List.nil_append, h2]
    rfl

/-- The per-candidate skip of `generate_file_links` amounts to: keep only
same-component candidates when one exists, otherwise keep all. -/
lemma keptDeps_eq (fc : Nat → Nat) (i : Nat) (deps : List Nat) :
    keptDeps fc i deps =
      if deps.any (fun d => fc d == fc i) then deps.filter (fun d => fc d == fc i)
      else deps := by
  unfold keptDeps
  cases h : deps.any (fun d => fc d == fc i) with
  | true => simp [h, bne, Bool.not_not]
  | false => simp [h]

/-- Claim C1: for a file `F` (index `i`) the resolver appends, per include
occurrence, exactly the same-component candidates when one exists in the
candidate set, all candidates when none does, and nothing when the lookup
misses (a missed lookup gives the empty candidate list, absorbed by either
branch). -/
theorem c1_same_component_suppression (files : List SrcFile) (fc : Nat → Nat)
    (i : Nat) (hi : i < files.length) :
    outgoingLinks files fc i =
      (files.get ⟨i, hi⟩).includePaths.flatMap (fun inc =>
        if (suffixLookup files inc).any (fun d => fc d == fc i) then
          (suffixLookup files inc).filter (fun d => fc d == fc i)
        else suffixLookup files inc) := by
  have hg : ∀ (j : Nat) (f : SrcFile) (e : Nat × Nat),
      e ∈ f.includePaths.flatMap (occEdges files fc j) → e.1 = j := by
    intro j f e he
    obtain ⟨inc, _, he2⟩ := List.mem_flatMap.mp he
    obtain ⟨d, _, rfl⟩ := List.mem_map.mp he2
    rfl
  have key := enumFrom_flatMap_filter Prod.fst
    (fun j f => f.includePaths.flatMap (occEdges files fc j)) hg files 0 i hi
  simp only [Nat.zero_add] at key
  unfold outgoingLinks allEdges
  rw [show files.enum = files.enumFrom 0 from rfl, key]
  rw [List.map_flatMap]
  apply List.flatMap_congr  -- pointwise rewrite of each occurrence block
  intro inc _
  unfold occEdges
  rw [List.map_map]
  simp only [Function.comp_def]
  rw [List.map_id']
  exact keptDeps_eq fc i (suffixLookup files inc)

/-- Claim C10: a successful suffix-index lookup always appends at least one
outgoing edge; the suppression never removes every candidate. -/
theorem c10_lookup_yields_edge (files : List SrcFile) (fc : Nat → Nat)
    (i : Nat) (inc : List Char) (h : suffixLookup files inc ≠ []) :
    occEdges files fc i inc ≠ [] := by
  unfold occEdges
  rw [keptDeps_eq]
  cases hq : (suffixLookup files inc).any (fun d => fc d == fc i) with
  | false =>
    intro habs
    simp only [Bool.false_eq_true, if_false, List.map_eq_nil_iff] at habs
    exact h habs
  | true =>
    intro habs
    simp only [if_true, List.map_eq_nil_iff, List.filter_eq_nil_iff] at habs
    obtain ⟨d, hd, hdc⟩ := List.any_eq_true.mp hq
    exact habs d hd hdc

/-- Two-file fixture: `a/x.cpp` includes the string `y.h`, which the suffix
index resolves to `b/y.h`. -/
def exFilesA : List SrcFile :=
  [⟨pstr "a/x.cpp", [pstr "y.h"]⟩, ⟨pstr "b/y.h", []⟩]

/-- Component assignment for `exFilesA`: file 0 in component 0, file 1 in
component 1. -/
def exFcA : Nat → Nat := fun i => i

/-- Witness for C1 at the two-file fixture. -/
theorem c1_same_component_suppression_witness :
    0 < exFilesA.length ∧
      outgoingLinks exFilesA exFcA 0 =
        (exFilesA.get ⟨0, by decide⟩).includePaths.flatMap (fun inc =>
          if (suffixLookup exFilesA inc).any (fun d => exFcA d == exFcA 0) then
            (suffixLookup exFilesA inc).filter (fun d => exFcA d == exFcA 0)
          else suffixLookup exFilesA inc) :=
  ⟨by decide, c1_same_component_suppression exFilesA exFcA 0 (by decide)⟩

/-- Witness for C10 at the two-file fixture. -/
theorem c10_lookup_yields_edge_witness :
    suffixLookup exFilesA (pstr "y.h") ≠ [] ∧
      occEdges exFilesA exFcA 0 (pstr "y.h") ≠ [] :=
  ⟨by decide, c10_lookup_yields_edge exFilesA exFcA 0 (pstr "y.h") (by decide)⟩

/-- The component assigner (src/graph.rs, files_to_components): positions
of `/` in `p`, most specific (rightmost) first.  Paths are ASCII here, so
Rust byte indices coincide with character indices. -/
def slashPositionsDesc (p : List Char) : List Nat :=
  ((List.range p.length).filter (fun i => p.getD i ' ' = '/')).reverse

/-- Component of one file path: first component whose path equals a prefix
of the file path cut at a `/`, trying rightmost cuts first; otherwise the
first component with empty path (the source unwraps its existence, which
`read_files` guarantees; an absent root component would panic there, and
here yields the out-of-range sentinel `components.length`). -/
def fileComponentOf (components : List (List Char)) (p : List Char) : Nat :=
  match (slashPositionsDesc p).findSome?
      (fun idx => components.findIdx? (fun c => c = p.take idx)) with
  | some i => i
  | none => components.findIdx (fun c => c.isEmpty)

/-- The `file_components` vector: every file assigned by longest-prefix
match. -/
def filesToComponents (components : List (List Char)) (files : List SrcFile) : List Nat :=
  files.map (fun f => fileComponentOf components f.path)

/-- Initial marking pass of `generate_is_public` (src/graph.rs lines
357-364): the files marked public (in marking order) by scanning every
file's outgoing links and marking unmarked cross-component targets.  This
list is also the initial work queue, since every mark is accompanied by a
push. -/
def crossMarks (n : Nat) (outgoing : Nat → List Nat) (fc : Nat → Nat) : List Nat :=
  (List.range n).foldl (fun acc f =>
    (outgoing f).foldl (fun acc2 fi =>
      if fi ∉ acc2 ∧ fc fi ≠ fc f then acc2 ++ [fi] else acc2) acc) []

/-- One popped-file step of the `while let Some(f) = to_visit.pop_front()`
loop: scan `outgoing f`, mark unmarked cross-component targets and record
them as new queue entries. -/
def markStep (outgoing : Nat → List Nat) (fc : Nat → Nat) (f : Nat)
    (pub : List Nat) : List Nat × List Nat :=
  (outgoing f).foldl (fun st fi =>
    if fi ∉ st.1 ∧ fc fi ≠ fc f then (st.1 ++ [fi], st.2 ++ [fi]) else st) (pub, [])

/-- The worklist loop of `generate_is_public`, fuelled: each iteration pops
the queue front.  The fuel only bounds the iteration count; on every valid
graph the fuel chosen in `generateIsPublic` outlasts the queue (each push
marks a previously unmarked file index below `n`). -/
def publicLoop (outgoing : Nat → List Nat) (fc : Nat → Nat) :
    Nat → List Nat → List Nat → List Nat
  | 0, _, pub => pub
  | _ + 1, [], pub => pub
  | fuel + 1, f :: q, pub =>
    let st := markStep outgoing fc f pub
    publicLoop outgoing fc fuel (q ++ st.2) st.1

/-- The `file_is_public` marking set computed by `generate_is_public`: a
file index is public iff it is in this list. -/
def generateIsPublic (n : Nat) (outgoing : Nat → List Nat) (fc : Nat → Nat) : List Nat :=
  let init := crossMarks n outgoing fc
  publicLoop outgoing fc (init.length + n) init init

/-- Forward reachability along outgoing links, as the claim C2 reads it:
the originator is the start of the path. -/
inductive ReachFw (outgoing : Nat → List Nat) : Nat → Nat → Prop
  | refl (a : Nat) : ReachFw outgoing a a
  | step {a b c : Nat} : b ∈ outgoing a → ReachFw outgoing b c → ReachFw outgoing a c

/-- Membership after the inner marking fold of the initial pass. -/
lemma innerMark_mem (fc : Nat → Nat) (f : Nat) (l : List Nat) :
    ∀ (acc : List Nat) (x : Nat),
    (x ∈ l.foldl (fun acc2 fi =>
        if fi ∉ acc2 ∧ fc fi ≠ fc f then acc2 ++ [fi] else acc2) acc) ↔
      x ∈ acc ∨ (x ∈ l ∧ fc x ≠ fc f) := by
  induction l with
  | nil => intro acc x; simp
  | cons a t ih =>
    intro acc x
    simp only [List.foldl_cons]
    rw [ih]
    by_cases ha : a ∉ acc ∧ fc a ≠ fc f
    · rw [if_pos ha]
      constructor
      · rintro (h | h)
        · rcases List.mem_append.mp h with h1 | h1
          · exact Or.inl h1
          · rcases List.mem_singleton.mp h1 with rfl
            exact Or.inr ⟨by simp, ha.2⟩
        · exact Or.inr ⟨List.mem_cons_of_mem a h.1, h.2⟩
      · rintro (h | ⟨hmem, hx⟩)
        · exact Or.inl (List.mem_append.mpr (Or.inl h))
        · rcases List.mem_cons.mp hmem with rfl | h2
          · exact Or.inl (List.mem_append.mpr (Or.inr (List.mem_singleton.mpr rfl)))
          · exact Or.inr ⟨h2, hx⟩
    · rw [if_neg ha]
      rw [not_and_or, not_not, not_not] at ha
      constructor
      · rintro (h | h)
        · exact Or.inl h
        · exact Or.inr ⟨List.mem_cons_of_mem a h.1, h.2⟩
      · rintro (h | ⟨hmem, hx⟩)
        · exact Or.inl h
        · rcases List.mem_cons.mp hmem with rfl | h2
          · rcases ha with ha | ha
            · exact Or.inl ha
            · exact absurd ha hx
          · exact Or.inr ⟨h2, hx⟩

/-- Characterization of the initial marking pass: exactly the targets of
cross-component edges get marked. -/
lemma crossMarks_mem (n : Nat) (outgoing : Nat → List Nat) (fc : Nat → Nat) (x : Nat) :
    x ∈ crossMarks n outgoing fc ↔ ∃ s, s < n ∧ x ∈ outgoing s ∧ fc s ≠ fc x := by
  unfold crossMarks
  suffices h : ∀ (l : List Nat) (acc : List Nat),
      (x ∈ l.foldl (fun acc f => (outgoing f).foldl (fun acc2 fi =>
        if fi ∉ acc2 ∧ fc fi ≠ fc f then acc2 ++ [fi] else acc2) acc) acc) ↔
      x ∈ acc ∨ ∃ s ∈ l, x ∈ outgoing s ∧ fc s ≠ fc x by
    rw [h (List.range n) []]
    simp [List.mem_range]
  intro l
  induction l with
  | nil => intro acc; simp
  | cons a t ih =>
    intro acc
    simp only [List.foldl_cons]
    rw [ih, innerMark_mem]
    constructor
    · rintro ((h | h) | ⟨s, hs, hx⟩)
      · exact Or.inl h
      · exact Or.inr ⟨a, List.mem_cons_self a t, h.1, Ne.symm h.2⟩
      · exact Or.inr ⟨s, List.mem_cons_of_mem a hs, hx⟩
    · rintro (h | ⟨s, hs, hx⟩)
      · exact Or.inl (Or.inl h)
      · rcases List.mem_cons.mp hs with rfl | hs2
        · exact Or.inl (Or.inr ⟨hx.1, Ne.symm hx.2⟩)
        · exact Or.inr ⟨s, hs2, hx⟩

/-- When every unmarked cross-component target of `f` is already marked,
a popped-file step changes nothing and queues nothing. -/
lemma markStep_noop (outgoing : Nat → List Nat) (fc : Nat → Nat) (f : Nat)
    (pub : List Nat) (h : ∀ fi ∈ outgoing f, fc fi ≠ fc f → fi ∈ pub) :
    markStep outgoing fc f pub = (pub, []) := by
  unfold markStep
  revert h
  generalize outgoing f = l
  intro h
  induction l with
  | nil => rfl
  | cons a t ih =>
    simp only [List.foldl_cons]
    have hcond : ¬(a ∉ (pub, ([] : List Nat)).1 ∧ fc a ≠ fc f) := by
      rintro ⟨h1, h2⟩
      exact h1 (h a (List.mem_cons_self a t) h2)
    rw [if_neg hcond]
    exact ih (fun fi hfi h2 => h fi (List.mem_cons_of_mem a hfi) h2)

/-- The worklist loop of `generate_is_public` never changes the marking
when the marking is already closed under cross-component propagation and
the queue holds only marked files. -/
lemma publicLoop_noop (outgoing : Nat → List Nat) (fc : Nat → Nat) (pub : List Nat)
    (hcl : ∀ f ∈ pub, ∀ fi ∈ outgoing f, fc fi ≠ fc f → fi ∈ pub) :
    ∀ (fuel : Nat) (q : List Nat), (∀ f ∈ q, f ∈ pub) →
      publicLoop outgoing fc fuel q pub = pub
  | 0, _, _ => rfl
  | _ + 1, [], _ => rfl
  | fuel + 1, f :: q, hq => by
    have hf := hq f (List.mem_cons_self f q)
    have hms : markStep outgoing fc f pub = (pub, []) :=
      markStep_noop outgoing fc f pub (hcl f hf)
    show publicLoop outgoing fc fuel (q ++ (markStep outgoing fc f pub).2)
        (markStep outgoing fc f pub).1 = pub
    rw [hms]
    simp only [List.append_nil]
    exact publicLoop_noop outgoing fc pub hcl fuel q
      (fun g hg => hq g (List.mem_cons_of_mem f hg))

/-- Claim C2, amended: on a graph whose outgoing links stay in range, a
file is marked public by `generate_is_public` iff some file of a different
component has a direct outgoing edge to it (the worklist propagation adds
nothing beyond the initial pass, because its marking condition is the
initial pass's condition restricted to marked sources). -/
theorem c2_public_iff_cross_edge (n : Nat) (outgoing : Nat → List Nat) (fc : Nat → Nat)
    (hvalid : ∀ s, s < n → ∀ t ∈ outgoing s, t < n) (f : Nat) :
    f ∈ generateIsPublic n outgoing fc ↔ ∃ s, s < n ∧ f ∈ outgoing s ∧ fc s ≠ fc f := by
  unfold generateIsPublic
  have hcl : ∀ g ∈ crossMarks n outgoing fc, ∀ fi ∈ outgoing g,
      fc fi ≠ fc g → fi ∈ crossMarks n outgoing fc := by
    intro g hg fi hfi hne
    have hgn : g < n := by
      obtain ⟨s, hs, hmem, _⟩ := (crossMarks_mem n outgoing fc g).mp hg
      exact hvalid s hs g hmem
    exact (crossMarks_mem n outgoing fc fi).mpr ⟨g, hgn, hfi, Ne.symm hne⟩
  rw [publicLoop_noop outgoing fc _ hcl _ _ (fun g hg => hg)]
  exact crossMarks_mem n outgoing fc f

/-- Outgoing-link function of the graph built from the two-file fixture. -/
def exOutA : Nat → List Nat := fun i => outgoingLinks exFilesA exFcA i

/-- Witness for the amended C2 at the two-file fixture: `b/y.h` (file 1) is
public, being the target of the cross-component edge from `a/x.cpp`. -/
theorem c2_public_iff_cross_edge_witness :
    (∀ s, s < 2 → ∀ t ∈ exOutA s, t < 2) ∧
      (1 ∈ generateIsPublic 2 exOutA exFcA ↔
        ∃ s, s < 2 ∧ 1 ∈ exOutA s ∧ exFcA s ≠ exFcA 1) :=
  ⟨by decide, c2_public_iff_cross_edge 2 exOutA exFcA (by decide) 1⟩

/-- Counterexample to C2 as stated: in the built two-file graph, file 0
(`a/x.cpp`) has a path following outgoing edges ending at file 1 (`b/y.h`)
of a different component, yet `generate_is_public` does not mark file 0:
publicness marks the file reached across the boundary, not the
originator. -/
theorem c2_counterexample :
    ¬ (0 ∈ generateIsPublic 2 exOutA exFcA ↔
        ∃ g, ReachFw exOutA 0 g ∧ exFcA g ≠ exFcA 0) := by
  intro h
  have h0 : 0 ∈ generateIsPublic 2 exOutA exFcA :=
    h.mpr ⟨1, ReachFw.step (by decide) (ReachFw.refl 1), by decide⟩
  exact absurd h0 (by decide)

/-- The suffix list of `FileCollectorThread::visit`
(src/file_collector.rs lines 118-120), in source order. -/
def sourceSuffixes : List (List Char) :=
  [pstr ".cpp", pstr ".hpp", pstr ".c", pstr ".h", pstr ".inl", pstr ".hh",
   pstr ".cc", pstr ".ipp", pstr ".imp", pstr ".impl", pstr ".H"]

/-- Final `/`-separated segment of a path (the file name). -/
def lastSegment (p : List Char) : List Char :=
  (p.reverse.takeWhile (fun c => c ≠ '/')).reverse

/-- Rust `entry.path().ends_with("CMakeLists.txt")` is the component-wise
`Path::ends_with`: the entry's file name equals `CMakeLists.txt`. -/
def isMarkerEntry (p : List Char) : Bool := lastSegment p = pstr "CMakeLists.txt"

/-- Whether the full path string ends with one of the source suffixes. -/
def isSourceEntry (p : List Char) : Bool := sourceSuffixes.any (fun s => endsWithP p s)

/-- What a walked entry contributes to the collector. -/
inductive Contribution where
  | component
  | file
  | ignored
deriving DecidableEq

/-- Dispatch of `FileCollectorThread::visit` on one walked entry (I/O
failures of include extraction, which drop the file, are outside this
model). -/
def classifyEntry (p : List Char) : Contribution :=
  if isMarkerEntry p then Contribution.component
  else if isSourceEntry p then Contribution.file
  else Contribution.ignored

/-- The claim's suffix set, as the spec lists it (with `.cxx` and
`.hxx`). -/
def c5ClaimSuffixes : List (List Char) :=
  [pstr ".c", pstr ".cpp", pstr ".cc", pstr ".cxx", pstr ".h", pstr ".hpp",
   pstr ".hh", pstr ".hxx", pstr ".H", pstr ".inl", pstr ".ipp", pstr ".imp",
   pstr ".impl"]

/-- The claim's suffix set corrected to the code: `.cxx` and `.hxx`
removed. -/
def c5AmendedSuffixes : List (List Char) :=
  [pstr ".c", pstr ".cpp", pstr ".cc", pstr ".h", pstr ".hpp", pstr ".hh",
   pstr ".H", pstr ".inl", pstr ".ipp", pstr ".imp", pstr ".impl"]

/-- Claim C5, amended: an entry contributes a file exactly when it is not a
marker and its name ends in one of the eleven implemented suffixes (the
spec's `.cxx` and `.hxx` are not among them), and contributes a component
exactly when its name is `CMakeLists.txt`. -/
theorem c5_scanner_selection_amended (p : List Char) :
    (classifyEntry p = Contribution.file ↔
      (isMarkerEntry p = false ∧
        c5AmendedSuffixes.any (fun s => endsWithP p s) = true)) ∧
    (classifyEntry p = Contribution.component ↔ isMarkerEntry p = true) := by
  have hperm : sourceSuffixes.Perm c5AmendedSuffixes := by decide
  have hany : sourceSuffixes.any (fun s => endsWithP p s) = true ↔
      c5AmendedSuffixes.any (fun s => endsWithP p s) = true := by
    simp only [List.any_eq_true]
    constructor
    · rintro ⟨s, hs, he⟩
      exact ⟨s, hperm.mem_iff.mp hs, he⟩
    · rintro ⟨s, hs, he⟩
      exact ⟨s, hperm.mem_iff.mpr hs, he⟩
  cases hm : isMarkerEntry p with
  | true => simp [classifyEntry, hm]
  | false =>
    cases hsrc : isSourceEntry p with
    | true =>
      have := hany.mp hsrc
      simp [classifyEntry, hm, hsrc, this]
    | false =>
      have : ¬ c5AmendedSuffixes.any (fun s => endsWithP p s) = true := by
        intro h
        have h2 := hany.mpr h
        rw [show sourceSuffixes.any (fun s => endsWithP p s) = isSourceEntry p from rfl,
          hsrc] at h2
        exact Bool.false_ne_true h2
      simp only [classifyEntry, hm, hsrc, Bool.false_eq_true, if_false]
      refine ⟨⟨fun h => absurd h (by decide), fun h => absurd h.2 this⟩, ?_⟩
      exact ⟨fun h => absurd h (by decide), fun h => absurd h (by decide)⟩

/-- Counterexample to C5 as stated: `proj/a.cxx` ends with `.cxx`, which
the spec's suffix set contains, yet the scanner ignores it (the
implemented suffix list has no `.cxx`). -/
theorem c5_counterexample :
    ¬ (classifyEntry (pstr "proj/a.cxx") = Contribution.file ↔
        (isMarkerEntry (pstr "proj/a.cxx") = false ∧
          c5ClaimSuffixes.any (fun s => endsWithP (pstr "proj/a.cxx") s) = true)) := by
  decide

/-- Rust `str::trim_start_matches` with a string pattern: repeatedly remove
the pattern from the front while it is a prefix.  The fuel `s.length + 1`
in `trimStartMatchesL` is exact: each removal of the non-empty pattern
shortens the list. -/
def trimStartRep : Nat → List Char → List Char → List Char
  | 0, _, s => s
  | fuel + 1, pat, s =>
    if pat ≠ [] ∧ pat.isPrefixOf s then trimStartRep fuel pat (s.drop pat.length)
    else s

/-- Rust `s.trim_start_matches(pat)` for a string pattern. -/
def trimStartMatchesL (pat s : List Char) : List Char := trimStartRep (s.length + 1) pat s

/-- Rust `s.trim_end_matches(pat)`: repeatedly remove the pattern from the
end. -/
def trimEndMatchesL (pat s : List Char) : List Char :=
  (trimStartMatchesL pat.reverse s.reverse).reverse

/-- `FileCollectorThread::rel_path`: strip the root (repeatedly), then
strip leading slashes (src/file_collector.rs lines 103-105). -/
def relPath (root p : List Char) : List Char :=
  (trimStartMatchesL root p).dropWhile (fun c => c = '/')

/-- Component path registered for one `CMakeLists.txt` marker entry
(src/file_collector.rs lines 128-131). -/
def markerComponentPath (root mp : List Char) : List Char :=
  relPath root (trimEndMatchesL (pstr "/CMakeLists.txt") mp)

/-- Component list after the walk and the root-component fallback of
`read_files` (src/file_collector.rs lines 37-46), given the walked marker
entries in collection order. -/
def readFilesComponents (root : List Char) (markerPaths : List (List Char)) :
    List (List Char) :=
  let cs := markerPaths.map (markerComponentPath root)
  if cs.any (fun c => c.isEmpty) then cs else cs ++ [[]]

/-- Claim C9 fails on the code: with root `/a` and the two distinct marker
files `/a/CMakeLists.txt` and `/a/a/CMakeLists.txt`, `rel_path` strips the
root prefix repeatedly (Rust `trim_start_matches`, where the Go original
used single-strip `TrimPrefix`), so both markers produce the empty
component path and the built component list holds two empty-path
components. -/
theorem c9_two_empty_components :
    (readFilesComponents (pstr "/a")
        [pstr "/a/CMakeLists.txt", pstr "/a/a/CMakeLists.txt"]).count ([] : List Char)
      = 2 := by
  decide

/-- Path of file `i` (Rust `graph.files[i].path`; the default is never hit
for in-range indices). -/
def pathOf (files : List SrcFile) (i : Nat) : List Char :=
  (files.getD i ⟨[], []⟩).path

/-- `Graph::is_header` (src/graph.rs lines 96-99).  Note the source tests
the third alternative with `ends_with("hxx")`, without a dot. -/
def isHeaderPath (p : List Char) : Bool :=
  endsWithP p (pstr ".h") || endsWithP p (pstr ".hpp") || endsWithP p (pstr "hxx")

/-- The `public_links` of one file in `print_headers` (src/cli.rs lines
87-91): incoming links from another component or from a public file. -/
def publicLinksOf (incoming : Nat → List Nat) (fc : Nat → Nat) (pub : Nat → Bool)
    (f : Nat) : List Nat :=
  (incoming f).filter (fun fi => fc fi != fc f || pub fi)

/-- Splitting a character list on a separator (Rust `str::split`); the
result is always non-empty. -/
def splitOnChar (sep : Char) : List Char → List (List Char)
  | [] => [[]]
  | c :: r =>
    match splitOnChar sep r with
    | [] => [[c]]
    | h :: t => if c = sep then [] :: h :: t else (c :: h) :: t

/-- Rust `base_name.rsplit('.').nth(1)`: the dot-separated token right
before the last dot of the base name, if any. -/
def stemOf (base : List Char) : Option (List Char) :=
  ((splitOnChar '.' base).reverse).get? 1

/-- The solo test of `print_headers` (src/cli.rs lines 100-108): the
header's stem occurs as a substring of the single includer's full path. -/
def soloCondition (files : List SrcFile) (f fi : Nat) : Bool :=
  match stemOf (lastSegment (pathOf files f)) with
  | some stem => listContains (pathOf files fi) stem
  | none => false

/-- Section a file of the queried component lands in, `skip` meaning it is
printed nowhere. -/
inductive HeaderClass where
  | pub
  | solo
  | priv
  | dead
  | skip
deriving DecidableEq

/-- Branch structure of the `print_headers` loop body for one file
(src/cli.rs lines 84-115): the public test comes first and without any
header check; only the remaining branches require `is_header`. -/
def classifyFile (files : List SrcFile) (incoming : Nat → List Nat) (fc : Nat → Nat)
    (pub : Nat → Bool) (f : Nat) : HeaderClass :=
  if publicLinksOf incoming fc pub f ≠ [] then HeaderClass.pub
  else if isHeaderPath (pathOf files f) then
    if incoming f ≠ [] then
      if (incoming f).length = 1 ∧ soloCondition files f ((incoming f).headD 0) = true then
        HeaderClass.solo
      else HeaderClass.priv
    else HeaderClass.dead
  else HeaderClass.skip

/-- The `component_files[c]` vector: file indices are pushed in index
order, so the list is the in-order filter of all files assigned to `c`. -/
def componentFilesOf (n : Nat) (fc : Nat → Nat) (c : Nat) : List Nat :=
  (List.range n).filter (fun i => fc i == c)

/-- Contents of one printed section of `print_headers` (before the display
sort): the single pass appends each file of `c` to the list its class
selects. -/
def headerSection (files : List SrcFile) (incoming : Nat → List Nat) (fc : Nat → Nat)
    (pub : Nat → Bool) (c : Nat) (cls : HeaderClass) : List Nat :=
  (componentFilesOf files.length fc c).filter
    (fun f => classifyFile files incoming fc pub f == cls)

/-- Claim C4, amended: among the non-public headers of a component, a
header is Solo exactly when it has a single incoming edge and the header's
own stem (the token before the last dot of its base name) occurs as a
substring of the includer's full path; otherwise Private with at least one
incoming edge, Dead with none. -/
theorem c4_solo_amended (files : List SrcFile) (incoming : Nat → List Nat)
    (fc : Nat → Nat) (pub : Nat → Bool) (c f : Nat)
    (hf : f ∈ componentFilesOf files.length fc c)
    (hnp : publicLinksOf incoming fc pub f = [])
    (hh : isHeaderPath (pathOf files f) = true) :
    (f ∈ headerSection files incoming fc pub c HeaderClass.solo ↔
      ∃ fi, incoming f = [fi] ∧ soloCondition files f fi = true) ∧
    (f ∈ headerSection files incoming fc pub c HeaderClass.priv ↔
      (incoming f ≠ [] ∧ ¬ ∃ fi, incoming f = [fi] ∧ soloCondition files f fi = true)) ∧
    (f ∈ headerSection files incoming fc pub c HeaderClass.dead ↔ incoming f = []) := by
  have hmem : ∀ cls, f ∈ headerSection files incoming fc pub c cls ↔
      classifyFile files incoming fc pub f = cls := by
    intro cls
    unfold headerSection
    rw [List.mem_filter]
    simp [hf]
  rw [hmem, hmem, hmem]
  unfold classifyFile
  rw [if_neg (by simp [hnp]), if_pos hh]
  cases hin : incoming f with
  | nil =>
    rw [if_neg (by simp)]
    refine ⟨⟨fun h => absurd h (by decide), ?_⟩, ⟨fun h => absurd h (by decide), ?_⟩,
      ⟨fun _ => rfl, fun _ => rfl⟩⟩
    · rintro ⟨fi, hfi, -⟩
      exact absurd hfi (by simp)
    · rintro ⟨h, -⟩
      exact absurd rfl h
  | cons a t =>
    rw [if_pos (by simp)]
    have hex : (∃ fi, a :: t = [fi] ∧ soloCondition files f fi = true) ↔
        (t = [] ∧ soloCondition files f a = true) := by
      constructor
      · rintro ⟨fi, hfi, hc⟩
        rw [List.cons.injEq] at hfi
        rcases hfi with ⟨rfl, rfl⟩
        exact ⟨rfl, hc⟩
      · rintro ⟨rfl, hc⟩
        exact ⟨a, rfl, hc⟩
    by_cases hC : (a :: t).length = 1 ∧ soloCondition files f ((a :: t).headD 0) = true
    · rw [if_pos hC]
      have ht : t = [] := by
        have := hC.1
        simp only [List.length_cons] at this
        exact List.length_eq_zero.mp (by omega)
      refine ⟨⟨fun _ => hex.mpr ⟨ht, by simpa using hC.2⟩, fun _ => rfl⟩, ?_, ?_⟩
      · refine ⟨fun h => absurd h (by decide), ?_⟩
        rintro ⟨-, hno⟩
        exact absurd (hex.mpr ⟨ht, by simpa using hC.2⟩) hno
      · refine ⟨fun h => absurd h (by decide), fun h => absurd h (by simp)⟩
    · rw [if_neg hC]
      refine ⟨⟨fun h => absurd h (by decide), ?_⟩, ?_, ?_⟩
      · intro hexh
        rcases hex.mp hexh with ⟨rfl, hc⟩
        exact absurd ⟨rfl, by simpa using hc⟩ hC
      · refine ⟨fun _ => ⟨by simp, ?_⟩, fun _ => rfl⟩
        intro hexh
        rcases hex.mp hexh with ⟨rfl, hc⟩
        exact absurd ⟨rfl, by simpa using hc⟩ hC
      · refine ⟨fun h => absurd h (by decide), fun h => absurd h (by simp)⟩

/-- Solo-header fixture: `c/foobar.cpp` includes `foo.h`, resolved inside
component `c` to `c/foo.h`; nothing else includes it and nothing crosses a
component boundary. -/
def exFilesB : List SrcFile :=
  [⟨pstr "c/foobar.cpp", [pstr "foo.h"]⟩, ⟨pstr "c/foo.h", []⟩]

/-- Components of the solo-header fixture. -/
def exCompsB : List (List Char) := [pstr "c", pstr ""]

/-- Assigned file components of the solo-header fixture. -/
def fcB : Nat → Nat := fun i => (filesToComponents exCompsB exFilesB).getD i 0

/-- Outgoing links of the solo-header fixture's built graph. -/
def outB : Nat → List Nat := fun i => outgoingLinks exFilesB fcB i

/-- Incoming links of the solo-header fixture's built graph. -/
def incB : Nat → List Nat := fun i => incomingLinks exFilesB fcB i

/-- Publicness flags of the solo-header fixture's built graph. -/
def pubB : Nat → Bool := fun f => (generateIsPublic 2 outB fcB).contains f

/-- Modelled from the claim C4 wording only (not from the source): the
basename of `p` without its final extension, used to state the claim's
direction of the substring test. -/
def claimBaseNoExt (p : List Char) : List Char :=
  let segs := splitOnChar '.' (lastSegment p)
  if segs.length ≤ 1 then lastSegment p
  else List.intercalate (pstr ".") segs.dropLast

/-- Counterexample to C4 as stated: in the solo fixture, `c/foo.h` has the
single includer `c/foobar.cpp` and the code classifies it Solo (the
header's stem `foo` occurs in the includer's path), while the claim's test
- the includer's basename-without-extension `foobar` being a substring of
the header basename `foo.h` - fails; the claim's substring direction is the
reverse of the implemented one. -/
theorem c4_counterexample :
    ¬ ((1 ∈ headerSection exFilesB incB fcB pubB 0 HeaderClass.solo) ↔
        (incB 1 = [0] ∧
          listContains (lastSegment (pathOf exFilesB 1))
            (claimBaseNoExt (pathOf exFilesB 0)) = true)) := by
  decide

/-- Witness for the amended C4 at the solo fixture. -/
theorem c4_solo_amended_witness :
    (1 ∈ componentFilesOf exFilesB.length fcB 0 ∧
      publicLinksOf incB fcB pubB 1 = [] ∧ isHeaderPath (pathOf exFilesB 1) = true) ∧
    ((1 ∈ headerSection exFilesB incB fcB pubB 0 HeaderClass.solo ↔
        ∃ fi, incB 1 = [fi] ∧ soloCondition exFilesB 1 fi = true) ∧
      (1 ∈ headerSection exFilesB incB fcB pubB 0 HeaderClass.priv ↔
        (incB 1 ≠ [] ∧ ¬ ∃ fi, incB 1 = [fi] ∧ soloCondition exFilesB 1 fi = true)) ∧
      (1 ∈ headerSection exFilesB incB fcB pubB 0 HeaderClass.dead ↔ incB 1 = [])) :=
  ⟨⟨by decide, by decide, by decide⟩,
    c4_solo_amended exFilesB incB fcB pubB 0 1 (by decide) (by decide) (by decide)⟩

/-- A path ending with a non-empty suffix ends with that suffix's last
character. -/
lemma endsWith_getLast (p s : List Char) (hs : endsWithP p s = true) (hne : s ≠ []) :
    p.getLast? = s.getLast? := by
  obtain ⟨t, rfl⟩ := List.isSuffixOf_iff_suffix.mp hs
  exact List.getLast?_append_of_ne_nil t hne

/-- On scanner-collected paths, the dotless `hxx` alternative of
`is_header` never fires (no collected suffix ends in `hxx`), so a header by
`is_header` does end with `.h`, `.hpp`, or `.hxx`. -/
lemma scanned_header_suffix (p : List Char) (hs : isSourceEntry p = true)
    (hh : isHeaderPath p = true) :
    (endsWithP p (pstr ".h") || endsWithP p (pstr ".hpp") ||
      endsWithP p (pstr ".hxx")) = true := by
  unfold isHeaderPath at hh
  rw [Bool.or_eq_true, Bool.or_eq_true] at hh
  rcases hh with (hA | hB) | h2
  · simp [hA]
  · simp [hB]
  · exfalso
    have hx : p.getLast? = some 'x' :=
      (endsWith_getLast p (pstr "hxx") h2 (by decide)).trans (by decide)
    obtain ⟨s, hsmem, hse⟩ := List.any_eq_true.mp hs
    simp only [sourceSuffixes, List.mem_cons, List.not_mem_nil, or_false] at hsmem
    rcases hsmem with rfl | rfl | rfl | rfl | rfl | rfl | rfl | rfl | rfl | rfl | rfl <;>
      · have hlast := endsWith_getLast p _ hse (by decide)
        rw [hx] at hlast
        exact absurd hlast (by decide)

/-- With the public-links test failing, the classifier never answers
Public. -/
lemma classify_ne_pub (files : List SrcFile) (incoming : Nat → List Nat)
    (fc : Nat → Nat) (pub : Nat → Bool) (f : Nat)
    (hp : publicLinksOf incoming fc pub f = []) :
    classifyFile files incoming fc pub f ≠ HeaderClass.pub := by
  unfold classifyFile
  rw [if_neg (by simp [hp])]
  by_cases h1 : isHeaderPath (pathOf files f) = true
  · rw [if_pos h1]
    by_cases h2 : incoming f ≠ []
    · rw [if_pos h2]
      by_cases h3 : (incoming f).length = 1 ∧
          soloCondition files f ((incoming f).headD 0) = true
      · rw [if_pos h3]
        decide
      · rw [if_neg h3]
        decide
    · rw [if_neg h2]
      decide
  · rw [if_neg h1]
    decide

/-- Claim C6, amended: on a graph of scanner-collected files, the Private,
Solo and Dead sections hold only headers (paths ending `.h`, `.hpp` or
`.hxx`), but the Public section holds every file of the component with a
public incoming link, whether or not it is a header: the public test of
`print_headers` precedes the `is_header` test. -/
theorem c6_sections_amended (files : List SrcFile) (incoming : Nat → List Nat)
    (fc : Nat → Nat) (pub : Nat → Bool) (c : Nat)
    (hscan : ∀ f ∈ files, isSourceEntry f.path = true) :
    (∀ cls, cls ≠ HeaderClass.pub → cls ≠ HeaderClass.skip →
      ∀ f ∈ headerSection files incoming fc pub c cls,
        (endsWithP (pathOf files f) (pstr ".h") ||
          endsWithP (pathOf files f) (pstr ".hpp") ||
          endsWithP (pathOf files f) (pstr ".hxx")) = true) ∧
    (∀ f, f ∈ headerSection files incoming fc pub c HeaderClass.pub ↔
      (f ∈ componentFilesOf files.length fc c ∧
        publicLinksOf incoming fc pub f ≠ [])) := by
  constructor
  · intro cls h1 h2 f hf
    rcases List.mem_filter.mp hf with ⟨hf1, hf2⟩
    have hcls : classifyFile files incoming fc pub f = cls := by simpa using hf2
    have hflt : f < files.length := by
      have := List.mem_filter.mp hf1
      simpa [List.mem_range] using this.1
    have hsrc : isSourceEntry (pathOf files f) = true := by
      have hmem : files.getD f ⟨[], []⟩ ∈ files := by
        rw [List.getD_eq_getElem files ⟨[], []⟩ hflt]
        exact List.getElem_mem hflt
      exact hscan _ hmem
    have hhd : isHeaderPath (pathOf files f) = true := by
      by_contra hhd
      unfold classifyFile at hcls
      by_cases hp : publicLinksOf incoming fc pub f ≠ []
      · rw [if_pos hp] at hcls
        exact h1 hcls.symm
      · rw [if_neg hp, if_neg hhd] at hcls
        exact h2 hcls.symm
    exact scanned_header_suffix _ hsrc hhd
  · intro f
    constructor
    · intro hmemf
      rcases List.mem_filter.mp hmemf with ⟨hf1, hf2⟩
      have hcls : classifyFile files incoming fc pub f = HeaderClass.pub := by
        simpa using hf2
      refine ⟨hf1, ?_⟩
      by_contra hp
      exact classify_ne_pub files incoming fc pub f hp hcls
    · rintro ⟨hf1, hp⟩
      refine List.mem_filter.mpr ⟨hf1, ?_⟩
      have : classifyFile files incoming fc pub f = HeaderClass.pub := by
        unfold classifyFile
        rw [if_pos hp]
      simp [this]

/-- Cross-component fixture: `d/y.cpp` includes the string `x.cpp`, which
resolves to `c/x.cpp` in another component, so the non-header `c/x.cpp`
acquires a public incoming link. -/
def exFilesC : List SrcFile :=
  [⟨pstr "d/y.cpp", [pstr "x.cpp"]⟩, ⟨pstr "c/x.cpp", []⟩]

/-- Components of the cross-component fixture. -/
def exCompsC : List (List Char) := [pstr "c", pstr "d", pstr ""]

/-- Assigned file components of the cross-component fixture. -/
def fcC : Nat → Nat := fun i => (filesToComponents exCompsC exFilesC).getD i 0

/-- Outgoing links of the cross-component fixture's built graph. -/
def outC : Nat → List Nat := fun i => outgoingLinks exFilesC fcC i

/-- Incoming links of the cross-component fixture's built graph. -/
def incC : Nat → List Nat := fun i => incomingLinks exFilesC fcC i

/-- Publicness flags of the cross-component fixture's built graph. -/
def pubC : Nat → Bool := fun f => (generateIsPublic 2 outC fcC).contains f

/-- Counterexample to C6 as stated: in the cross-component fixture, the
non-header `c/x.cpp` (file 1) appears in the Public section of component
`c`'s header classification. -/
theorem c6_counterexample :
    1 ∈ headerSection exFilesC incC fcC pubC 0 HeaderClass.pub ∧
      (endsWithP (pathOf exFilesC 1) (pstr ".h") ||
        endsWithP (pathOf exFilesC 1) (pstr ".hpp") ||
        endsWithP (pathOf exFilesC 1) (pstr ".hxx")) = false := by
  decide

/-- Witness for the amended C6 at the cross-component fixture. -/
theorem c6_sections_amended_witness :
    (∀ f ∈ exFilesC, isSourceEntry f.path = true) ∧
    ((∀ cls, cls ≠ HeaderClass.pub → cls ≠ HeaderClass.skip →
      ∀ f ∈ headerSection exFilesC incC fcC pubC 0 cls,
        (endsWithP (pathOf exFilesC f) (pstr ".h") ||
          endsWithP (pathOf exFilesC f) (pstr ".hpp") ||
          endsWithP (pathOf exFilesC f) (pstr ".hxx")) = true) ∧
    (∀ f, f ∈ headerSection exFilesC incC fcC pubC 0 HeaderClass.pub ↔
      (f ∈ componentFilesOf exFilesC.length fcC 0 ∧
        publicLinksOf incC fcC pubC f ≠ []))) :=
  ⟨by decide, c6_sections_amended exFilesC incC fcC pubC 0 (by decide)⟩



/-- Edge list recorded under key `co` in the outgoing map of
`Graph::linked_components` for component `c` (src/graph.rs lines 136-146):
pairs `(f, fo)` in push order, with the public filter applied to the source
file `f` of component `c`. -/
def outgoingAgg (n : Nat) (fc : Nat → Nat) (outgoing : Nat → List Nat) (pub : Nat → Bool)
    (op : Bool) (c co : Nat) : List (Nat × Nat) :=
  (componentFilesOf n fc c).flatMap (fun f =>
    if !op || pub f then
      ((outgoing f).filter (fun fo => fc fo == co && !(fc fo == c))).map (fun fo => (f, fo))
    else [])

/-- Edge list recorded under key `co` in the incoming map of
`Graph::linked_components` for component `c` (src/graph.rs lines 124-135):
pairs `(fi, f)` in push order - also oriented source-to-target - with the
public filter applied to the source file `fi` of component `co`. -/
def incomingAgg (n : Nat) (fc : Nat → Nat) (incoming : Nat → List Nat) (pub : Nat → Bool)
    (op : Bool) (c co : Nat) : List (Nat × Nat) :=
  (componentFilesOf n fc c).flatMap (fun f =>
    ((incoming f).filter (fun fi => (!op || pub fi) && (fc fi == co && !(fc fi == c)))).map
      (fun fi => (fi, f)))

/-- Occurrence counting distributes over flat maps. -/
lemma countP_flatMap {α β : Type} (l : List α) (h : α → List β) (p : β → Bool) :
    (l.flatMap h).countP p = (l.map (fun a => (h a).countP p)).sum := by
  induction l with
  | nil => simp
  | cons a t ih => simp [List.flatMap_cons, List.countP_append, ih]

/-- Counting a pair among pairs sharing the first component. -/
lemma countP_pair_map_snd (f : Nat) (l : List Nat) (s t : Nat) :
    ((l.map (fun fo => ((f, fo) : Nat × Nat))).countP (fun e => decide (e = (s, t)))) =
      if s = f then l.count t else 0 := by
  by_cases hs : s = f
  · subst hs
    rw [if_pos rfl]
    induction l with
    | nil => simp
    | cons a r ih =>
      simp only [List.map_cons, List.countP_cons, List.count_cons, ih]
      by_cases ht : a = t
      · subst ht
        simp
      · simp [Prod.ext_iff, ht]
  · rw [if_neg hs]
    rw [List.countP_eq_zero]
    intro e hmem
    obtain ⟨fo, -, rfl⟩ := List.mem_map.mp hmem
    simp only [decide_eq_true_eq, Prod.mk.injEq]
    intro hc
    exact absurd hc.1.symm hs

/-- Counting a pair among pairs sharing the second component. -/
lemma countP_pair_map_fst (g : Nat) (l : List Nat) (s t : Nat) :
    ((l.map (fun fi => ((fi, g) : Nat × Nat))).countP (fun e => decide (e = (s, t)))) =
      if t = g then l.count s else 0 := by
  by_cases ht : t = g
  · subst ht
    rw [if_pos rfl]
    induction l with
    | nil => simp
    | cons a r ih =>
      simp only [List.map_cons, List.countP_cons, List.count_cons, ih]
      by_cases hs : a = s
      · subst hs
        simp
      · simp [Prod.ext_iff, hs]
  · rw [if_neg ht]
    rw [List.countP_eq_zero]
    intro e hmem
    obtain ⟨fi, -, rfl⟩ := List.mem_map.mp hmem
    simp only [decide_eq_true_eq, Prod.mk.injEq]
    intro hc
    exact absurd hc.2.symm ht

/-- Summing an indicator over a duplicate-free list picks the single
matching term. -/
lemma sum_map_ite_single (l : List Nat) (hnd : l.Nodup) (g : Nat → Nat) (s : Nat) :
    (l.map (fun f => if s = f then g f else 0)).sum = if s ∈ l then g s else 0 := by
  induction l with
  | nil => simp
  | cons a t ih =>
    rcases List.nodup_cons.mp hnd with ⟨hna, hnt⟩
    simp only [List.map_cons, List.sum_cons, ih hnt]
    by_cases hs : s = a
    · subst hs
      rw [if_pos rfl, if_neg hna, if_pos (List.mem_cons_self s t)]
      omega
    · simp [hs, List.mem_cons]

/-- Membership in a component's file list. -/
lemma mem_componentFilesOf (n : Nat) (fc : Nat → Nat) (c : Nat) (s : Nat) :
    s ∈ componentFilesOf n fc c ↔ (s < n ∧ fc s = c) := by
  unfold componentFilesOf
  rw [List.mem_filter]
  simp [List.mem_range]

/-- A component's file list holds each index at most once. -/
lemma componentFilesOf_nodup (n : Nat) (fc : Nat → Nat) (c : Nat) :
    (componentFilesOf n fc c).Nodup :=
  (List.nodup_range n).filter _

/-- Closed form for pair multiplicities in the outgoing aggregation. -/
lemma outgoingAgg_count (n : Nat) (fc : Nat → Nat) (outgoing : Nat → List Nat)
    (pub : Nat → Bool) (op : Bool) (A B : Nat) (s t : Nat) :
    (outgoingAgg n fc outgoing pub op A B).countP (fun e => decide (e = (s, t))) =
      if s < n ∧ fc s = A ∧ (!op || pub s) = true ∧ fc t = B ∧ fc t ≠ A then
        (outgoing s).count t
      else 0 := by
  unfold outgoingAgg
  rw [countP_flatMap]
  have hmap : ∀ f ∈ componentFilesOf n fc A,
      ((if !op || pub f then
        ((outgoing f).filter (fun fo => fc fo == B && !(fc fo == A))).map (fun fo => (f, fo))
      else []).countP (fun e => decide (e = (s, t)))) =
      (if s = f then
        (if (!op || pub f) = true then
          ((outgoing f).filter (fun fo => fc fo == B && !(fc fo == A))).count t
        else 0)
      else 0) := by
    intro f hf
    by_cases hop : (!op || pub f) = true
    · rw [if_pos hop, if_pos hop, countP_pair_map_snd]
    · rw [if_neg hop, if_neg hop]
      simp
  rw [List.map_congr_left hmap]
  rw [sum_map_ite_single (componentFilesOf n fc A) (componentFilesOf_nodup n fc A)
    (fun f => if (!op || pub f) = true then
      ((outgoing f).filter (fun fo => fc fo == B && !(fc fo == A))).count t else 0) s]
  rw [if_congr (mem_componentFilesOf n fc A s) rfl rfl]
  by_cases h1 : s < n ∧ fc s = A
  · rw [if_pos h1]
    by_cases hop : (!op || pub s) = true
    · rw [if_pos hop]
      by_cases h2 : fc t = B ∧ fc t ≠ A
      · rw [if_pos ⟨h1.1, h1.2, hop, h2.1, h2.2⟩]
        apply List.count_filter
        have hBA : ¬ B = A := fun h => h2.2 (h2.1.trans h)
        simp [h2.1, hBA]
      · rw [if_neg (by tauto)]
        rw [List.count_eq_zero]
        intro hmem
        rcases List.mem_filter.mp hmem with ⟨-, hpred⟩
        simp only [Bool.and_eq_true, beq_iff_eq, Bool.not_eq_true',
          beq_eq_false_iff_ne] at hpred
        exact h2 hpred
    · rw [if_neg hop, if_neg (by tauto)]
  · rw [if_neg h1, if_neg (by tauto)]

/-- Closed form for pair multiplicities in the incoming aggregation. -/
lemma incomingAgg_count (n : Nat) (fc : Nat → Nat) (incoming : Nat → List Nat)
    (pub : Nat → Bool) (op : Bool) (B A : Nat) (s t : Nat) :
    (incomingAgg n fc incoming pub op B A).countP (fun e => decide (e = (s, t))) =
      if t < n ∧ fc t = B ∧ (!op || pub s) = true ∧ fc s = A ∧ fc s ≠ B then
        (incoming t).count s
      else 0 := by
  unfold incomingAgg
  rw [countP_flatMap]
  have hmap : ∀ g ∈ componentFilesOf n fc B,
      ((((incoming g).filter
          (fun fi => (!op || pub fi) && (fc fi == A && !(fc fi == B)))).map
        (fun fi => (fi, g))).countP (fun e => decide (e = (s, t)))) =
      (if t = g then
        ((incoming g).filter
          (fun fi => (!op || pub fi) && (fc fi == A && !(fc fi == B)))).count s
      else 0) := by
    intro g hg
    rw [countP_pair_map_fst]
  rw [List.map_congr_left hmap]
  rw [sum_map_ite_single (componentFilesOf n fc B) (componentFilesOf_nodup n fc B)
    (fun g => ((incoming g).filter
      (fun fi => (!op || pub fi) && (fc fi == A && !(fc fi == B)))).count s) t]
  rw [if_congr (mem_componentFilesOf n fc B t) rfl rfl]
  by_cases h1 : t < n ∧ fc t = B
  · rw [if_pos h1]
    by_cases h2 : (!op || pub s) = true ∧ fc s = A ∧ fc s ≠ B
    · rw [if_pos ⟨h1.1, h1.2, h2.1, h2.2.1, h2.2.2⟩]
      apply List.count_filter
      have hAB2 : ¬ A = B := fun h => h2.2.2 (h2.2.1.trans h)
      simp [h2.1, h2.2.1, hAB2]
    · rw [if_neg (by tauto)]
      rw [List.count_eq_zero]
      intro hmem
      rcases List.mem_filter.mp hmem with ⟨-, hpred⟩
      simp only [Bool.and_eq_true, beq_iff_eq, Bool.not_eq_true',
        beq_eq_false_iff_ne] at hpred
      exact h2 ⟨hpred.1, hpred.2.1, hpred.2.2⟩
  · rw [if_neg h1, if_neg (by tauto)]

/-- Claim C7, amended: on any graph with in-range, count-consistent edge
lists, the multiset of edges under key B in A's outgoing aggregation equals
the multiset under key A in B's incoming aggregation directly - both maps
record edges oriented from the A-side file to the B-side file, so no
direction reversal is involved. -/
theorem c7_symmetry_amended (n : Nat) (fc : Nat → Nat)
    (outgoing incoming : Nat → List Nat) (pub : Nat → Bool) (op : Bool) (A B : Nat)
    (hAB : A ≠ B)
    (hout : ∀ s, s < n → ∀ t ∈ outgoing s, t < n)
    (hinc : ∀ t, t < n → ∀ s ∈ incoming t, s < n)
    (hcons : ∀ s, s < n → ∀ t, t < n → (outgoing s).count t = (incoming t).count s) :
    (outgoingAgg n fc outgoing pub op A B : Multiset (Nat × Nat)) =
      ↑(incomingAgg n fc incoming pub op B A) := by
  rw [Multiset.coe_eq_coe]
  apply List.perm_iff_count.mpr
  rintro ⟨s, t⟩
  show (outgoingAgg n fc outgoing pub op A B).countP (fun e => decide (e = (s, t))) =
    (incomingAgg n fc incoming pub op B A).countP (fun e => decide (e = (s, t)))
  rw [outgoingAgg_count, incomingAgg_count]
  by_cases hcore : fc s = A ∧ (!op || pub s) = true ∧ fc t = B
  · rcases hcore with ⟨hsA, hop, htB⟩
    have htA : fc t ≠ A := by
      rw [htB]
      exact fun h => hAB h.symm
    have hsB : fc s ≠ B := by
      rw [hsA]
      exact hAB
    by_cases hsn : s < n
    · by_cases htn : t < n
      · rw [if_pos ⟨hsn, hsA, hop, htB, htA⟩, if_pos ⟨htn, htB, hop, hsA, hsB⟩]
        exact hcons s hsn t htn
      · rw [if_pos ⟨hsn, hsA, hop, htB, htA⟩, if_neg (by tauto)]
        rw [List.count_eq_zero]
        intro hmem
        exact htn (hout s hsn t hmem)
    · by_cases htn : t < n
      · rw [if_neg (by tauto), if_pos ⟨htn, htB, hop, hsA, hsB⟩]
        rw [eq_comm, List.count_eq_zero]
        intro hmem
        exact hsn (hinc t htn s hmem)
      · rw [if_neg (by tauto), if_neg (by tauto)]
  · rw [if_neg (by tauto), if_neg (by tauto)]


/-- Incoming links of the two-file fixture's built graph. -/
def exIncA : Nat → List Nat := fun i => incomingLinks exFilesA exFcA i

/-- Publicness flags of the two-file fixture's built graph. -/
def exPubA : Nat → Bool := fun f => (generateIsPublic 2 exOutA exFcA).contains f

/-- Counterexample to C7 as stated: in the built two-file graph, the
outgoing-0-to-1 aggregation is the single edge `(0, 1)` and so is the
incoming-1-from-0 aggregation; reversing the latter gives `(1, 0)`, which
differs. -/
theorem c7_counterexample :
    ¬ ((outgoingAgg 2 exFcA exOutA exPubA false 0 1 : Multiset (Nat × Nat)) =
        ↑((incomingAgg 2 exFcA exIncA exPubA false 1 0).map (fun e => (e.2, e.1)))) := by
  decide

/-- Witness for the amended C7 at the two-file fixture. -/
theorem c7_symmetry_amended_witness :
    (((0 : Nat) ≠ 1) ∧ (∀ s, s < 2 → ∀ t ∈ exOutA s, t < 2) ∧
      (∀ t, t < 2 → ∀ s ∈ exIncA t, s < 2) ∧
      (∀ s, s < 2 → ∀ t, t < 2 → (exOutA s).count t = (exIncA t).count s)) ∧
      (outgoingAgg 2 exFcA exOutA exPubA false 0 1 : Multiset (Nat × Nat)) =
        ↑(incomingAgg 2 exFcA exIncA exPubA false 1 0) :=
  ⟨⟨by decide, by decide, by decide, by decide⟩,
    c7_symmetry_amended 2 exFcA exOutA exIncA exPubA false 0 1 (by decide) (by decide)
      (by decide) (by decide)⟩


def MAXDIST : Nat := 4294967295

/-- Entry of the parent/distance vector (Rust `dists[c]`); the default is
only reachable out of range, where the Rust code would panic. -/
def dget (ds : List (Nat × Nat)) (c : Nat) : Nat × Nat := ds.getD c (0, 0)

/-- Sum of the distance column, the termination measure of the BFS loop. -/
def sumD (ds : List (Nat × Nat)) : Nat := (ds.map (fun e => e.2)).sum

section BFS

variable (cfiles : Nat → List Nat) (outgoing : Nat → List Nat)
  (fc : Nat → Nat) (pub : Nat → Bool) (op : Bool) (cFrom : Nat)

def bfsSuccs (c : Nat) : List Nat :=
  (cfiles c).flatMap (fun f =>
    if c = cFrom ∧ op = true ∧ pub f = false then [] else (outgoing f).map fc)

def relaxList (c d : Nat) : List Nat → List (Nat × Nat) → List Nat →
    List (Nat × Nat) × List Nat
  | [], dists, pushed => (dists, pushed)
  | x :: xs, dists, pushed =>
    if d < (dget dists x).2 then
      relaxList c d xs (dists.set x (c, d)) (pushed ++ [x])
    else relaxList c d xs dists pushed

def bfsLoop (succs : Nat → List Nat) : Nat → List Nat → List (Nat × Nat) →
    List (Nat × Nat)
  | 0, _, dists => dists
  | _ + 1, [], dists => dists
  | fuel + 1, c :: q, dists =>
    let st := relaxList c ((dget dists c).2 + 1) (succs c) dists []
    bfsLoop succs fuel (q ++ st.2) st.1

def initDists (ncomp : Nat) : List (Nat × Nat) :=
  ((List.range ncomp).map (fun _ => ((0 : Nat), MAXDIST))).set cFrom (cFrom, 0)

def bfsFuel (ncomp : Nat) : Nat :=
  ((initDists cFrom ncomp).map (fun e => e.2)).sum + 2

def bfsRun (ncomp : Nat) : List (Nat × Nat) :=
  bfsLoop (bfsSuccs cfiles outgoing fc pub op cFrom) (bfsFuel cFrom ncomp) [cFrom]
    (initDists cFrom ncomp)

def walkParents (dists : List (Nat × Nat)) : Nat → Nat → List Nat
  | 0, _ => []
  | fuel + 1, c =>
    if c = cFrom then [cFrom]
    else c :: walkParents dists fuel (dget dists c).1

def printShortest (ncomp cTo : Nat) : Option (List Nat) :=
  let dists := bfsRun cfiles outgoing fc pub op cFrom ncomp
  if (dget dists cTo).2 = MAXDIST then none
  else some ((walkParents cFrom dists ((dget dists cTo).2 + 1) cTo).reverse)

end BFS

lemma dget_set_self (l : List (Nat × Nat)) (i : Nat) (v : Nat × Nat) (h : i < l.length) :
    dget (l.set i v) i = v := by
  unfold dget
  rw [List.getD_eq_getElem?_getD, List.getElem?_set_self (by simpa using h)]
  rfl

lemma dget_set_other (l : List (Nat × Nat)) (i j : Nat) (v : Nat × Nat) (h : i ≠ j) :
    dget (l.set i v) j = dget l j := by
  unfold dget
  rw [List.getD_eq_getElem?_getD, List.getElem?_set_ne h, ← List.getD_eq_getElem?_getD]

lemma dget_oob (l : List (Nat × Nat)) (i : Nat) (h : l.length ≤ i) : dget l i = (0, 0) := by
  unfold dget
  rw [List.getD_eq_getElem?_getD, List.getElem?_eq_none (by simpa using h)]
  rfl

lemma sumD_set (l : List (Nat × Nat)) (i : Nat) (v : Nat × Nat) (h : i < l.length) :
    sumD (l.set i v) + (dget l i).2 = sumD l + v.2 := by
  induction l generalizing i with
  | nil => simp at h
  | cons a t ih =>
    cases i with
    | zero =>
      simp only [List.set_cons_zero, sumD, List.map_cons, List.sum_cons, dget,
        List.getD_cons_zero]
      omega
    | succ j =>
      simp only [List.set_cons_succ, sumD, List.map_cons, List.sum_cons, dget,
        List.getD_cons_succ]
      have := ih j (by simpa using h)
      simp only [sumD, dget] at this
      omega

section BFS

variable (cfiles : Nat → List Nat) (outgoing : Nat → List Nat)
  (fc : Nat → Nat) (pub : Nat → Bool) (op : Bool) (cFrom : Nat)

lemma relaxList_dists (c d : Nat) :
    ∀ (xs : List Nat) (ds : List (Nat × Nat)) (pushed : List Nat),
    ((relaxList c d xs ds pushed).1.length = ds.length) ∧
    (∀ y, dget (relaxList c d xs ds pushed).1 y = dget ds y ∨
      (y ∈ xs ∧ dget (relaxList c d xs ds pushed).1 y = (c, d) ∧ d < (dget ds y).2 ∧
        y < ds.length)) ∧
    (∀ y, (dget (relaxList c d xs ds pushed).1 y).2 ≤ (dget ds y).2) ∧
    (∀ y ∈ xs, (dget (relaxList c d xs ds pushed).1 y).2 ≤ d)
  | [], ds, pushed => by
    refine ⟨rfl, fun y => Or.inl rfl, fun y => le_refl _, fun y hy => absurd hy (by simp)⟩
  | x :: xs, ds, pushed => by
    simp only [relaxList]
    by_cases hcond : d < (dget ds x).2
    · rw [if_pos hcond]
      have hxlen : x < ds.length := by
        by_contra hge
        rw [dget_oob ds x (by omega)] at hcond
        omega
      obtain ⟨ih1, ih2, ih3, ih4⟩ := relaxList_dists c d xs (ds.set x (c, d)) (pushed ++ [x])
      refine ⟨by rw [ih1, List.length_set], ?_, ?_, ?_⟩
      · intro y
        rcases ih2 y with h | h
        · by_cases hxy : x = y
          · subst hxy
            rw [h, dget_set_self ds x (c, d) hxlen]
            exact Or.inr ⟨List.mem_cons_self x xs, rfl, hcond, hxlen⟩
          · rw [h, dget_set_other ds x y (c, d) hxy]
            exact Or.inl rfl
        · by_cases hxy : x = y
          · subst hxy
            exact Or.inr ⟨List.mem_cons_self x xs, h.2.1, hcond, hxlen⟩
          · rw [dget_set_other ds x y (c, d) hxy] at h
            exact Or.inr ⟨List.mem_cons_of_mem x h.1, h.2.1, h.2.2.1, by
              rw [List.length_set] at h; exact h.2.2.2⟩
      · intro y
        refine le_trans (ih3 y) ?_
        by_cases hxy : x = y
        · subst hxy
          rw [dget_set_self ds x (c, d) hxlen]
          omega
        · rw [dget_set_other ds x y (c, d) hxy]
      · intro y hy
        rcases List.mem_cons.mp hy with rfl | hyxs
        · refine le_trans (ih3 y) ?_
          rw [dget_set_self ds y (c, d) hxlen]
        · exact ih4 y hyxs
    · rw [if_neg hcond]
      obtain ⟨ih1, ih2, ih3, ih4⟩ := relaxList_dists c d xs ds pushed
      refine ⟨ih1, ?_, ih3, ?_⟩
      · intro y
        rcases ih2 y with h | h
        · exact Or.inl h
        · exact Or.inr ⟨List.mem_cons_of_mem x h.1, h.2⟩
      · intro y hy
        rcases List.mem_cons.mp hy with rfl | hyxs
        · exact le_trans (ih3 y) (by omega)
        · exact ih4 y hyxs


lemma relaxList_pushed (c d : Nat) :
    ∀ (xs : List Nat) (ds : List (Nat × Nat)) (pushed : List Nat),
    (∀ y ∈ pushed, y ∈ (relaxList c d xs ds pushed).2) ∧
    (∀ y ∈ (relaxList c d xs ds pushed).2,
      y ∈ pushed ∨ (y ∈ xs ∧ dget (relaxList c d xs ds pushed).1 y = (c, d) ∧
        y < ds.length ∧ d < (dget ds y).2)) ∧
    (∀ y, dget (relaxList c d xs ds pushed).1 y ≠ dget ds y →
      y ∈ (relaxList c d xs ds pushed).2) ∧
    (sumD (relaxList c d xs ds pushed).1 + (relaxList c d xs ds pushed).2.length ≤
      sumD ds + pushed.length)
  | [], ds, pushed => by
    refine ⟨fun y hy => hy, fun y hy => Or.inl hy, fun y h => absurd rfl h, le_refl _⟩
  | x :: xs, ds, pushed => by
    simp only [relaxList]
    by_cases hcond : d < (dget ds x).2
    · rw [if_pos hcond]
      have hxlen : x < ds.length := by
        by_contra hge
        rw [dget_oob ds x (by omega)] at hcond
        omega
      obtain ⟨ihA1, ihA2, ihA3, ihA4⟩ :=
        relaxList_dists c d xs (ds.set x (c, d)) (pushed ++ [x])
      obtain ⟨ih1, ih2, ih3, ih4⟩ := relaxList_pushed c d xs (ds.set x (c, d)) (pushed ++ [x])
      refine ⟨?_, ?_, ?_, ?_⟩
      · intro y hy
        exact ih1 y (List.mem_append.mpr (Or.inl hy))
      · intro y hy
        rcases ih2 y hy with hmem | ⟨hyxs, hval, hylen, hlt⟩
        · rcases List.mem_append.mp hmem with hmem2 | hmem2
          · exact Or.inl hmem2
          · rcases List.mem_singleton.mp hmem2 with rfl
            refine Or.inr ⟨List.mem_cons_self y xs, ?_, hxlen, hcond⟩
            rcases ihA2 y with h | h
            · rw [h, dget_set_self ds y (c, d) hxlen]
            · exact h.2.1
        · by_cases hxy : x = y
          · subst hxy
            refine Or.inr ⟨List.mem_cons_self x xs, hval, hxlen, hcond⟩
          · rw [dget_set_other ds x y (c, d) hxy] at hlt
            rw [List.length_set] at hylen
            exact Or.inr ⟨List.mem_cons_of_mem x hyxs, hval, hylen, hlt⟩
      · intro y hchg
        by_cases hxy : x = y
        · subst hxy
          exact ih1 x (List.mem_append.mpr (Or.inr (List.mem_singleton.mpr rfl)))
        · apply ih3 y
          rw [dget_set_other ds x y (c, d) hxy]
          exact hchg
      · have hs := sumD_set ds x (c, d) hxlen
        have hlen : (pushed ++ [x]).length = pushed.length + 1 := by simp
        rw [hlen] at ih4
        omega
    · rw [if_neg hcond]
      obtain ⟨ih1, ih2, ih3, ih4⟩ := relaxList_pushed c d xs ds pushed
      refine ⟨ih1, ?_, ih3, ih4⟩
      intro y hy
      rcases ih2 y hy with h | h
      · exact Or.inl h
      · exact Or.inr ⟨List.mem_cons_of_mem x h.1, h.2⟩

end BFS

/-- Loop invariant of the BFS over the component graph: the vector has the
right length, the origin keeps distance 0 and parent itself, every queued
node is in range with finite distance, distances never exceed `MAXDIST`,
every finite non-origin node has an in-range parent of strictly smaller
distance that reaches it in one step, and every finite node is queued or
fully relaxed. -/
def bfsInv (succs : Nat → List Nat) (cFrom ncomp : Nat) (q : List Nat)
    (ds : List (Nat × Nat)) : Prop :=
  ds.length = ncomp ∧
  dget ds cFrom = (cFrom, 0) ∧
  (∀ c ∈ q, c < ncomp ∧ (dget ds c).2 < MAXDIST) ∧
  (∀ c, (dget ds c).2 ≤ MAXDIST) ∧
  (∀ c, c < ncomp → c ≠ cFrom → (dget ds c).2 < MAXDIST →
    (dget ds c).1 < ncomp ∧ (dget ds (dget ds c).1).2 < (dget ds c).2 ∧
    c ∈ succs (dget ds c).1) ∧
  (∀ c, c < ncomp → (dget ds c).2 < MAXDIST →
    c ∈ q ∨ ∀ x ∈ succs c, (dget ds x).2 ≤ (dget ds c).2 + 1)

/-- One pop of the BFS loop preserves the invariant and decreases the
fuel measure. -/
lemma bfsInv_step (succs : Nat → List Nat) (cFrom ncomp : Nat)
    (hsucc : ∀ a x, x ∈ succs a → x < ncomp)
    (c : Nat) (q : List Nat) (ds : List (Nat × Nat))
    (hinv : bfsInv succs cFrom ncomp (c :: q) ds) :
    bfsInv succs cFrom ncomp
      (q ++ (relaxList c ((dget ds c).2 + 1) (succs c) ds []).2)
      (relaxList c ((dget ds c).2 + 1) (succs c) ds []).1 ∧
    sumD (relaxList c ((dget ds c).2 + 1) (succs c) ds []).1 +
      (relaxList c ((dget ds c).2 + 1) (succs c) ds []).2.length ≤ sumD ds := by
  obtain ⟨hlen, hfrom0, hq, hmax, hpar, hclose⟩ := hinv
  obtain ⟨hcn, hcfin⟩ := hq c (List.mem_cons_self c q)
  set d := (dget ds c).2 + 1 with hd
  obtain ⟨hA1, hA2, hA3, hA4⟩ := relaxList_dists c d (succs c) ds []
  obtain ⟨hB1, hB2, hB3, hB4⟩ := relaxList_pushed c d (succs c) ds []
  set r1 := (relaxList c d (succs c) ds []).1 with hr1
  set r2 := (relaxList c d (succs c) ds []).2 with hr2
  have hcst : dget r1 c = dget ds c := by
    rcases hA2 c with h | h
    · exact h
    · omega
  refine ⟨⟨by rw [hA1, hlen], ?_, ?_, ?_, ?_, ?_⟩, by simpa using hB4⟩
  · rcases hA2 cFrom with h | h
    · rw [h, hfrom0]
    · rw [hfrom0] at h
      simp only at h
      omega
  · intro y hy
    rcases List.mem_append.mp hy with hyq | hyr
    · obtain ⟨h1, h2⟩ := hq y (List.mem_cons_of_mem c hyq)
      exact ⟨h1, lt_of_le_of_lt (hA3 y) h2⟩
    · rcases hB2 y hyr with h | ⟨hyx, hyval, hylen, hylt⟩
      · simp at h
      · refine ⟨hsucc c y hyx, ?_⟩
        rw [hyval]
        have := hmax y
        omega
  · intro y
    rcases hA2 y with h | h
    · rw [h]
      exact hmax y
    · rw [h.2.1]
      have := hmax y
      simp only
      omega
  · intro y hyn hyfrom hyfin
    rcases hA2 y with h | h
    · rw [h]
      rw [h] at hyfin
      obtain ⟨hp1, hp2, hp3⟩ := hpar y hyn hyfrom hyfin
      refine ⟨hp1, lt_of_le_of_lt (hA3 (dget ds y).1) hp2, hp3⟩
    · rw [h.2.1]
      simp only
      refine ⟨hcn, ?_, h.1⟩
      rw [hcst]
      omega
  · intro y hyn hyfin
    by_cases hchg : dget r1 y = dget ds y
    · by_cases hyc : y = c
      · subst hyc
        right
        intro x hx
        rw [hchg]
        exact le_trans (hA4 x hx) (by omega)
      · rw [hchg] at hyfin
        rcases hclose y hyn hyfin with hmem | hcl
        · rcases List.mem_cons.mp hmem with h | h
          · exact absurd h hyc
          · exact Or.inl (List.mem_append.mpr (Or.inl h))
        · right
          intro x hx
          rw [hchg]
          exact le_trans (hA3 x) (hcl x hx)
    · exact Or.inl (List.mem_append.mpr (Or.inr (hB3 y hchg)))

/-- With enough fuel the BFS loop drains its queue while keeping the
invariant; the result satisfies the invariant with an empty queue, which
makes every finite node fully relaxed. -/
lemma bfsLoop_inv (succs : Nat → List Nat) (cFrom ncomp : Nat)
    (hsucc : ∀ a x, x ∈ succs a → x < ncomp) :
    ∀ (fuel : Nat) (q : List Nat) (ds : List (Nat × Nat)),
    q.length + sumD ds ≤ fuel → bfsInv succs cFrom ncomp q ds →
    bfsInv succs cFrom ncomp [] (bfsLoop succs fuel q ds)
  | 0, q, ds => by
    intro hfuel hinv
    have hq : q = [] := List.length_eq_zero.mp (by omega)
    subst hq
    exact hinv
  | fuel + 1, [], ds => by
    intro hfuel hinv
    exact hinv
  | fuel + 1, c :: q, ds => by
    intro hfuel hinv
    obtain ⟨hinv2, hsum⟩ := bfsInv_step succs cFrom ncomp hsucc c q ds hinv
    have hfuel2 : (q ++ (relaxList c ((dget ds c).2 + 1) (succs c) ds []).2).length +
        sumD (relaxList c ((dget ds c).2 + 1) (succs c) ds []).1 ≤ fuel := by
      rw [List.length_append]
      simp only [List.length_cons] at hfuel
      omega
    exact bfsLoop_inv succs cFrom ncomp hsucc fuel _ _ hfuel2 hinv2

lemma dget_constBase (ncomp c : Nat) :
    dget ((List.range ncomp).map (fun _ => ((0 : Nat), MAXDIST))) c =
      if c < ncomp then (0, MAXDIST) else (0, 0) := by
  unfold dget
  rw [List.getD_eq_getElem?_getD]
  by_cases h : c < ncomp
  · rw [List.getElem?_map, List.getElem?_range h]
    simp [h]
  · rw [List.getElem?_eq_none (by simpa using Nat.le_of_not_lt h)]
    simp [h]

lemma dget_initDists (cFrom ncomp c : Nat) (hfrom : cFrom < ncomp) :
    dget (initDists cFrom ncomp) c =
      if c = cFrom then (cFrom, 0) else if c < ncomp then (0, MAXDIST) else (0, 0) := by
  unfold initDists
  by_cases hc : c = cFrom
  · subst hc
    rw [if_pos rfl, dget_set_self]
    rw [List.length_map, List.length_range]
    exact hfrom
  · rw [if_neg hc, dget_set_other _ _ _ _ (fun h => hc h.symm), dget_constBase]

/-- The BFS invariant holds at loop entry. -/
lemma bfsInv_init (succs : Nat → List Nat) (cFrom ncomp : Nat) (hfrom : cFrom < ncomp) :
    bfsInv succs cFrom ncomp [cFrom] (initDists cFrom ncomp) := by
  have hget := dget_initDists cFrom ncomp
  refine ⟨?_, ?_, ?_, ?_, ?_, ?_⟩
  · unfold initDists
    rw [List.length_set, List.length_map, List.length_range]
  · rw [hget cFrom hfrom, if_pos rfl]
  · intro c hc
    rcases List.mem_singleton.mp hc with rfl
    rw [hget c hfrom, if_pos rfl]
    exact ⟨hfrom, show (0 : Nat) < MAXDIST by decide⟩
  · intro c
    rw [hget c hfrom]
    by_cases h1 : c = cFrom
    · rw [if_pos h1]
      show (0 : Nat) ≤ MAXDIST
      decide
    · rw [if_neg h1]
      by_cases h2 : c < ncomp
      · rw [if_pos h2]
      · rw [if_neg h2]
        show (0 : Nat) ≤ MAXDIST
        decide
  · intro c hcn hcfrom hcfin
    rw [hget c hfrom, if_neg hcfrom, if_pos hcn] at hcfin
    simp at hcfin
  · intro c hcn hcfin
    by_cases h1 : c = cFrom
    · subst h1
      exact Or.inl (List.mem_singleton.mpr rfl)
    · rw [hget c hfrom, if_neg h1, if_pos hcn] at hcfin
      simp at hcfin

/-- A component path in the claim's sense: non-empty, starts at `A`, ends
at `B`, consecutive components linked by the BFS successor relation. -/
def CompPath (succs : Nat → List Nat) (A B : Nat) (p : List Nat) : Prop :=
  p.head? = some A ∧ p.getLast? = some B ∧ List.Chain' (fun a b => b ∈ succs a) p

lemma chain_elems (succs : Nat → List Nat) (ncomp : Nat)
    (hsucc : ∀ a x, x ∈ succs a → x < ncomp) :
    ∀ (p : List Nat) (A : Nat), p.head? = some A → A < ncomp →
    List.Chain' (fun a b => b ∈ succs a) p → ∀ x ∈ p, x < ncomp
  | [], A => by
    intro h
    simp at h
  | [a], A => by
    intro hh hA hc x hx
    rcases List.mem_singleton.mp hx with rfl
    rw [List.head?_cons, Option.some.injEq] at hh
    rw [hh]
    exact hA
  | a :: b :: t, A => by
    intro hh hA hc x hx
    rw [List.head?_cons, Option.some.injEq] at hh
    subst hh
    rcases List.chain'_cons.mp hc with ⟨hab, hct⟩
    rcases List.mem_cons.mp hx with rfl | hx2
    · exact hA
    · exact chain_elems succs ncomp hsucc (b :: t) b rfl (hsucc a b hab) hct x hx2

lemma nodup_length_le (l : List Nat) (n : Nat) (hnd : l.Nodup) (hel : ∀ x ∈ l, x < n) :
    l.length ≤ n := by
  have h1 : l.toFinset.card = l.length := List.toFinset_card_of_nodup hnd
  have h2 : l.toFinset ⊆ Finset.range n := by
    intro x hx
    simp only [Finset.mem_range]
    exact hel x (List.mem_toFinset.mp hx)
  have := Finset.card_le_card h2
  rw [Finset.card_range] at this
  omega

lemma not_nodup_split {α : Type} [DecidableEq α] :
    ∀ (l : List α), ¬ l.Nodup → ∃ xs a ys zs, l = xs ++ a :: (ys ++ a :: zs)
  | [], h => absurd List.nodup_nil h
  | a :: t, h => by
    by_cases h1 : a ∈ t
    · obtain ⟨ys, zs, rfl⟩ := List.append_of_mem h1
      exact ⟨[], a, ys, zs, rfl⟩
    · have h2 : ¬ t.Nodup := fun hnd => h (List.nodup_cons.mpr ⟨h1, hnd⟩)
      obtain ⟨xs, b, ys, zs, rfl⟩ := not_nodup_split t h2
      exact ⟨a :: xs, b, ys, zs, rfl⟩

lemma head_append_cons_eq {α : Type} (xs : List α) (a : α) (u v : List α) :
    (xs ++ a :: u).head? = (xs ++ a :: v).head? := by
  cases xs <;> simp

lemma path_shortcut (succs : Nat → List Nat) (A B : Nat) (xs ys zs : List Nat) (a : Nat)
    (hp : CompPath succs A B (xs ++ a :: (ys ++ a :: zs))) :
    CompPath succs A B (xs ++ a :: zs) := by
  obtain ⟨hh, hl, hc⟩ := hp
  have hsplit : xs ++ a :: (ys ++ a :: zs) = xs ++ (a :: ys) ++ (a :: zs) := by simp
  refine ⟨?_, ?_, ?_⟩
  · rw [head_append_cons_eq xs a zs (ys ++ a :: zs)]
    exact hh
  · rw [hsplit] at hl
    rw [List.getLast?_append_of_ne_nil _ (by simp : (a :: zs) ≠ [])] at hl
    rw [show xs ++ a :: zs = xs ++ (a :: zs) from rfl,
      List.getLast?_append_of_ne_nil _ (by simp : (a :: zs) ≠ [])]
    exact hl
  · rw [hsplit] at hc
    rcases List.chain'_append.mp hc with ⟨hc1, hc2, hbr⟩
    rcases List.chain'_append.mp hc1 with ⟨hcxs, hcys, hbrx⟩
    refine List.chain'_append.mpr ⟨hcxs, hc2, ?_⟩
    intro x hx y hy
    have hya : a = y := by simpa using hy
    subst hya
    exact hbrx x hx a (by simp)

lemma path_dedup (succs : Nat → List Nat) (ncomp : Nat)
    (hsucc : ∀ a x, x ∈ succs a → x < ncomp) (A B : Nat) (hA : A < ncomp) :
    ∀ (m : Nat) (p : List Nat), p.length ≤ m → CompPath succs A B p →
    ∃ q, CompPath succs A B q ∧ q.length ≤ ncomp
  | 0, p => by
    intro hm hp
    have : p = [] := List.length_eq_zero.mp (by omega)
    subst this
    exact absurd hp.1 (by simp)
  | m + 1, p => by
    intro hm hp
    by_cases hnd : p.Nodup
    · refine ⟨p, hp, ?_⟩
      exact nodup_length_le p ncomp hnd
        (chain_elems succs ncomp hsucc p A hp.1 hA hp.2.2)
    · obtain ⟨xs, a, ys, zs, rfl⟩ := not_nodup_split p hnd
      have hshort := path_shortcut succs A B xs ys zs a hp
      have hlen : (xs ++ a :: zs).length ≤ m := by
        simp only [List.length_append, List.length_cons] at hm ⊢
        omega
      exact path_dedup succs ncomp hsucc A B hA m (xs ++ a :: zs) hlen hshort

/-- Completeness of the drained BFS state: the recorded distance of the
end of any component path is at most the path's edge count (when that
count is below the infinity sentinel). -/
lemma dist_le_path (succs : Nat → List Nat) (cFrom ncomp : Nat)
    (D : List (Nat × Nat)) (hfinal : bfsInv succs cFrom ncomp [] D)
    (hsucc : ∀ a x, x ∈ succs a → x < ncomp) (hfrom : cFrom < ncomp) :
    ∀ (m : Nat) (p : List Nat) (B : Nat), p.length ≤ m → CompPath succs cFrom B p →
    p.length - 1 < MAXDIST → (dget D B).2 ≤ p.length - 1
  | 0, p, B => by
    intro hm hp hmax
    have : p = [] := List.length_eq_zero.mp (by omega)
    subst this
    exact absurd hp.1 (by simp)
  | m + 1, p, B => by
    intro hm hp hmax
    rcases List.eq_nil_or_concat p with rfl | ⟨L, b, rfl⟩
    · exact absurd hp.1 (by simp)
    · rw [List.concat_eq_append] at hp hm hmax ⊢
      obtain ⟨hh, hl, hc⟩ := hp
      have hbB : b = B := by
        rw [List.getLast?_concat] at hl
        exact Option.some.inj hl
      cases L with
      | nil =>
        have hBfrom : b = cFrom := by simpa using hh
        rw [← hbB, hBfrom, hfinal.2.1]
        simp
      | cons a t =>
        set L := a :: t with hL
        have hLne : L ≠ [] := by simp [hL]
        have hBp : L.getLast? = some (L.getLast hLne) := List.getLast?_eq_getLast L hLne
        set Bp := L.getLast hLne with hBpdef
        rcases List.chain'_append.mp hc with ⟨hcL, -, hbr⟩
        have hpL : CompPath succs cFrom Bp L := by
          refine ⟨?_, hBp, hcL⟩
          rw [← hh]
          cases t <;> simp [hL]
        have hlenL : L.length ≤ m := by
          simp only [List.length_append, List.length_cons, List.length_nil] at hm
          omega
        have hLpos : 1 ≤ L.length := by simp [hL]
        have hmaxL : L.length - 1 < MAXDIST := by
          simp only [List.length_append, List.length_cons, List.length_nil] at hmax
          omega
        have ihL := dist_le_path succs cFrom ncomp D hfinal hsucc hfrom m L Bp
          hlenL hpL hmaxL
        have hBpfin : (dget D Bp).2 < MAXDIST := by omega
        have hBpn : Bp < ncomp := by
          have helems := chain_elems succs ncomp hsucc L cFrom hpL.1 hfrom hpL.2.2
          exact helems Bp (List.getLast_mem hLne)
        have hedge : b ∈ succs Bp := by
          apply hbr Bp (by rw [hBp]; rfl) b
          simp
        rcases hfinal.2.2.2.2.2 Bp hBpn hBpfin with hmem | hcl
        · exact absurd hmem (by simp)
        · have := hcl b hedge
          rw [← hbB]
          simp only [List.length_append, List.length_cons, List.length_nil]
          omega

/-- Soundness of parent reconstruction: walking parents from a finite node
yields (after reversal) a component path from the origin whose length is at
most the recorded distance plus one. -/
lemma walk_spec (succs : Nat → List Nat) (cFrom ncomp : Nat)
    (D : List (Nat × Nat)) (hfinal : bfsInv succs cFrom ncomp [] D) :
    ∀ (fuel : Nat) (c : Nat), c < ncomp → (dget D c).2 < MAXDIST →
    (dget D c).2 < fuel →
    CompPath succs cFrom c ((walkParents cFrom D fuel c).reverse) ∧
    ((walkParents cFrom D fuel c).reverse).length ≤ (dget D c).2 + 1
  | 0, c => by
    intro hcn hcfin hcfuel
    omega
  | fuel + 1, c => by
    intro hcn hcfin hcfuel
    simp only [walkParents]
    by_cases hcf : c = cFrom
    · rw [if_pos hcf]
      subst hcf
      refine ⟨⟨by simp, by simp, by simp⟩, by simp⟩
    · rw [if_neg hcf]
      obtain ⟨hp1, hp2, hp3⟩ := hfinal.2.2.2.2.1 c hcn hcf hcfin
      have hpfin : (dget D (dget D c).1).2 < MAXDIST := by omega
      have hpfuel : (dget D (dget D c).1).2 < fuel := by omega
      obtain ⟨⟨ih1, ih2, ih3⟩, ihlen⟩ := walk_spec succs cFrom ncomp D hfinal fuel
        (dget D c).1 hp1 hpfin hpfuel
      rw [List.reverse_cons]
      have hwne : (walkParents cFrom D fuel (dget D c).1).reverse ≠ [] := by
        intro habs
        rw [habs] at ih1
        exact Option.noConfusion ih1
      refine ⟨⟨?_, ?_, ?_⟩, ?_⟩
      · cases hwl : (walkParents cFrom D fuel (dget D c).1).reverse with
        | nil => exact absurd hwl hwne
        | cons x t =>
          rw [hwl] at ih1
          simpa using ih1
      · rw [List.getLast?_append_of_ne_nil _ (by simp : ([c] : List Nat) ≠ [])]
        rfl
      · refine List.chain'_append.mpr ⟨ih3, List.chain'_singleton c, ?_⟩
        intro x hx y hy
        rw [ih2] at hx
        have hx2 : (dget D c).1 = x := by simpa using hx
        have hy2 : c = y := by simpa using hy
        rw [← hx2, ← hy2]
        exact hp3
      · rw [List.length_append]
        simp only [List.length_cons, List.length_nil]
        omega

/-- Claim C3: the shortest-path query of `print_shortest` prints a
component path of minimal length over the component graph induced by file
outgoing links - with the only-public restriction applied to the origin
component's files only, as built into `bfsSuccs` - when the target is
reachable, and prints "No path found." (modelled as `none`) exactly when it
is unreachable. -/
theorem c3_shortest_path (ncomp : Nat) (cfiles outgoing : Nat → List Nat)
    (fc : Nat → Nat) (pub : Nat → Bool) (op : Bool) (cFrom cTo : Nat)
    (hfrom : cFrom < ncomp) (hto : cTo < ncomp)
    (hfc : ∀ f, fc f < ncomp) (hn : ncomp ≤ MAXDIST) :
    (printShortest cfiles outgoing fc pub op cFrom ncomp cTo = none ↔
      ¬ ∃ p, CompPath (bfsSuccs cfiles outgoing fc pub op cFrom) cFrom cTo p) ∧
    (∀ p, printShortest cfiles outgoing fc pub op cFrom ncomp cTo = some p →
      CompPath (bfsSuccs cfiles outgoing fc pub op cFrom) cFrom cTo p ∧
      ∀ q, CompPath (bfsSuccs cfiles outgoing fc pub op cFrom) cFrom cTo q →
        p.length ≤ q.length) := by
  have hsucc : ∀ a x, x ∈ bfsSuccs cfiles outgoing fc pub op cFrom a → x < ncomp := by
    intro a x hx
    unfold bfsSuccs at hx
    obtain ⟨f, -, hx2⟩ := List.mem_flatMap.mp hx
    by_cases hskip : a = cFrom ∧ op = true ∧ pub f = false
    · rw [if_pos hskip] at hx2
      simp at hx2
    · rw [if_neg hskip] at hx2
      obtain ⟨fo, -, rfl⟩ := List.mem_map.mp hx2
      exact hfc fo
  have hfinal : bfsInv (bfsSuccs cfiles outgoing fc pub op cFrom) cFrom ncomp []
      (bfsRun cfiles outgoing fc pub op cFrom ncomp) := by
    apply bfsLoop_inv _ cFrom ncomp hsucc
    · show [cFrom].length + sumD (initDists cFrom ncomp) ≤ bfsFuel cFrom ncomp
      have h1 : sumD (initDists cFrom ncomp) =
          ((initDists cFrom ncomp).map (fun e => e.2)).sum := rfl
      unfold bfsFuel
      rw [h1]
      simp only [List.length_cons, List.length_nil]
      omega
    · exact bfsInv_init _ cFrom ncomp hfrom
  set D := bfsRun cfiles outgoing fc pub op cFrom ncomp with hD
  have hout : printShortest cfiles outgoing fc pub op cFrom ncomp cTo =
      (if (dget D cTo).2 = MAXDIST then none
       else some ((walkParents cFrom D ((dget D cTo).2 + 1) cTo).reverse)) := rfl
  have hreach_bound : ∀ q, CompPath (bfsSuccs cfiles outgoing fc pub op cFrom)
      cFrom cTo q → q.length - 1 < MAXDIST → (dget D cTo).2 ≤ q.length - 1 := by
    intro q hq hql
    exact dist_le_path _ cFrom ncomp D hfinal hsucc hfrom q.length q cTo
      (le_refl _) hq hql
  by_cases hU : (dget D cTo).2 = MAXDIST
  · rw [hout, if_pos hU]
    constructor
    · constructor
      · rintro - ⟨p, hp⟩
        obtain ⟨q, hq, hqlen⟩ := path_dedup _ ncomp hsucc cFrom cTo hfrom
          p.length p (le_refl _) hp
        have hqpos : 1 ≤ q.length := by
          rcases q with - | ⟨a, t⟩
          · exact absurd hq.1 (by simp)
          · simp
        have hql : q.length - 1 < MAXDIST := by omega
        have := hreach_bound q hq hql
        omega
      · rintro -
        rfl
    · intro p hp
      exact Option.noConfusion hp
  · have hfin : (dget D cTo).2 < MAXDIST :=
      lt_of_le_of_ne (hfinal.2.2.2.1 cTo) hU
    obtain ⟨hpath, hplen⟩ := walk_spec _ cFrom ncomp D hfinal
      ((dget D cTo).2 + 1) cTo hto hfin (by omega)
    rw [hout, if_neg hU]
    constructor
    · constructor
      · intro h
        exact Option.noConfusion h
      · intro h
        exact absurd ⟨_, hpath⟩ h
    · intro p hp
      have hpw : p = (walkParents cFrom D ((dget D cTo).2 + 1) cTo).reverse :=
        (Option.some.inj hp).symm
      subst hpw
      refine ⟨hpath, ?_⟩
      intro q hq
      have hqpos : 1 ≤ q.length := by
        rcases q with - | ⟨a, t⟩
        · exact absurd hq.1 (by simp)
        · simp
      by_cases hql : q.length - 1 < MAXDIST
      · have := hreach_bound q hq hql
        omega
      · omega

/-- Three-component chain fixture for the BFS: components 0 -> 1 -> 2 with
one file each. -/
def exCfilesD : Nat → List Nat := fun c => if c < 3 then [c] else []

/-- Outgoing file links of the chain fixture. -/
def exOutD : Nat → List Nat := fun f => if f = 0 then [1] else if f = 1 then [2] else []

/-- File components of the chain fixture (clamped into range). -/
def exFcD : Nat → Nat := fun f => if f < 3 then f else 0

/-- Publicness flags of the chain fixture. -/
def exPubD : Nat → Bool := fun _ => true

example : printShortest exCfilesD exOutD exFcD exPubD false 0 3 2 = some [0, 1, 2] := by
  decide

example : printShortest exCfilesD exOutD exFcD exPubD false 2 3 0 = none := by decide


/-- Witness for C3 at the three-component chain fixture. -/
theorem c3_shortest_path_witness :
    ((0 : Nat) < 3 ∧ (2 : Nat) < 3 ∧ (∀ f, exFcD f < 3) ∧ 3 ≤ MAXDIST) ∧
    ((printShortest exCfilesD exOutD exFcD exPubD false 0 3 2 = none ↔
      ¬ ∃ p, CompPath (bfsSuccs exCfilesD exOutD exFcD exPubD false 0) 0 2 p) ∧
    (∀ p, printShortest exCfilesD exOutD exFcD exPubD false 0 3 2 = some p →
      CompPath (bfsSuccs exCfilesD exOutD exFcD exPubD false 0) 0 2 p ∧
      ∀ q, CompPath (bfsSuccs exCfilesD exOutD exFcD exPubD false 0) 0 2 q →
        p.length ≤ q.length)) :=
  ⟨⟨by decide, by decide, by intro f; unfold exFcD; split <;> omega, by decide⟩,
    c3_shortest_path 3 exCfilesD exOutD exFcD exPubD false 0 2 (by decide) (by decide)
      (by intro f; unfold exFcD; split <;> omega) (by decide)⟩

/-! ### C8: Tarjan strongly connected components -/


/-- State of the Tarjan SCC computation (src/cli.rs, struct Tarjan):
`-1` entries mean unvisited, mirroring the `i32` vectors of the source. -/
structure TarjanSt where
  index : Int
  indices : List Int
  lowlink : List Int
  onStackV : List Bool
  stack : List Nat
  sccs : List (List Nat)
deriving DecidableEq

/-- The pop loop at an SCC root (src/cli.rs lines 279-289): pop until the
root comes off, clearing stack flags and collecting the SCC in pop order.
The list head is the stack top, matching `Vec::push`/`Vec::pop` at the
back.  Returns (remaining stack, flags, collected SCC).  An empty stack
would panic in the source and returns the accumulator unchanged here. -/
def popStack (v : Nat) : List Nat → List Bool → List Nat →
    List Nat × List Bool × List Nat
  | [], onSt, acc => ([], onSt, acc)
  | w :: rest, onSt, acc =>
    if w = v then (rest, onSt.set w false, acc ++ [w])
    else popStack v rest (onSt.set w false) (acc ++ [w])

/-- The successor traversal of `strong_connect` skips self-edges:
`.filter(|&c| c != v)` in src/cli.rs line 264. -/
def succsT (succs : Nat → List Nat) (v : Nat) : List Nat :=
  (succs v).filter (fun w => w ≠ v)

/-- `lowlink[v] = min(lowlink[v], x)`. -/
def updLow (v : Nat) (x : Int) (st : TarjanSt) : TarjanSt :=
  { st with lowlink := st.lowlink.set v (min (st.lowlink.getD v (-1)) x) }

/-- Push `v` on the stack and stamp it with the next index
(src/cli.rs lines 252-257). -/
def pushV (v : Nat) (st : TarjanSt) : TarjanSt :=
  { index := st.index + 1
    indices := st.indices.set v st.index
    lowlink := st.lowlink.set v st.index
    onStackV := st.onStackV.set v true
    stack := v :: st.stack
    sccs := st.sccs }

/-- Pop the SCC rooted at `v` (src/cli.rs lines 278-290). -/
def popScc (v : Nat) (st : TarjanSt) : TarjanSt :=
  let p := popStack v st.stack st.onStackV []
  { st with stack := p.1, onStackV := p.2.1, sccs := st.sccs ++ [p.2.2] }

/-- One iteration of the successor loop of `strong_connect`
(src/cli.rs lines 265-276); `rec` is the recursive call. -/
def scStep (rec : Nat → TarjanSt → TarjanSt) (v : Nat) (acc : TarjanSt) (w : Nat) :
    TarjanSt :=
  if acc.indices.getD w (-1) = -1 then
    let acc2 := rec w acc
    updLow v (acc2.lowlink.getD w (-1)) acc2
  else if acc.onStackV.getD w false then
    updLow v (acc.indices.getD w (-1)) acc
  else acc

/-- One recursive call of `Tarjan::strong_connect` for vertex `v`
(src/cli.rs lines 251-291).  The successor iteration of the source -
files of the component, their outgoing links, mapped to components,
self-loops skipped - is abstracted by `succs`; `succsT` applies the
self-loop filter.  The fuel only bounds recursion depth; every run
started by `tarjanRun` has enough. -/
def scVisit (succs : Nat → List Nat) : Nat → Nat → TarjanSt → TarjanSt
  | 0, _, st => st
  | fuel + 1, v, st =>
    let st2 := (succsT succs v).foldl
      (scStep (fun w acc => scVisit succs fuel w acc) v) (pushV v st)
    if st2.lowlink.getD v (-1) = st2.indices.getD v (-1) then popScc v st2
    else st2

/-- Initial Tarjan state for `ncomp` components (src/cli.rs lines 228-242). -/
def tarjanInit (ncomp : Nat) : TarjanSt :=
  { index := 0
    indices := List.replicate ncomp (-1)
    lowlink := List.replicate ncomp (-1)
    onStackV := List.replicate ncomp false
    stack := []
    sccs := [] }

/-- `Tarjan::run`: visit every still-unvisited component in index order. -/
def tarjanRun (succs : Nat → List Nat) (ncomp : Nat) : List (List Nat) :=
  ((List.range ncomp).foldl (fun st v =>
    if st.indices.getD v (-1) = -1 then scVisit succs (ncomp + 1) v st else st)
    (tarjanInit ncomp)).sccs

/-- `show_sccs` (src/cli.rs lines 206-216): keep components of size above
one, reversed into push order before printing. -/
def shownSccs (succs : Nat → List Nat) (ncomp : Nat) : List (List Nat) :=
  ((tarjanRun succs ncomp).filter (fun s => s.length > 1)).map (fun s => s.reverse)




/-- The successor list of component `v` in the component graph walked by
`strong_connect` (src/cli.rs lines 260-263): files of the component,
their outgoing links, mapped to components. -/
def compSuccs (n : Nat) (fc : Nat → Nat) (outgoing : Nat → List Nat) (v : Nat) : List Nat :=
  ((componentFilesOf n fc v).flatMap outgoing).map fc

/-- Mutual reachability in the self-loop-free component graph. -/
def MutReach (succs : Nat → List Nat) (u w : Nat) : Prop :=
  ReachFw (succsT succs) u w ∧ ReachFw (succsT succs) w u

def idxOf (st : TarjanSt) (v : Nat) : Int := st.indices.getD v (-1)

def lowOf (st : TarjanSt) (v : Nat) : Int := st.lowlink.getD v (-1)

def visitedV (st : TarjanSt) (v : Nat) : Prop := idxOf st v ≠ -1

def onStk (st : TarjanSt) (v : Nat) : Prop := st.onStackV.getD v false = true

def assignedV (st : TarjanSt) (v : Nat) : Prop := ∃ S ∈ st.sccs, v ∈ S

lemma reach_trans {f : Nat → List Nat} {a b c : Nat}
    (h1 : ReachFw f a b) (h2 : ReachFw f b c) : ReachFw f a c := by
  induction h1 with
  | refl => exact h2
  | step he _ ih => exact ReachFw.step he (ih h2)

lemma reach_snoc {f : Nat → List Nat} {a b c : Nat}
    (h : ReachFw f a b) (he : c ∈ f b) : ReachFw f a c :=
  reach_trans h (ReachFw.step he (ReachFw.refl c))

lemma reach_closure {f : Nat → List Nat} (P : Nat → Prop)
    (hP : ∀ a b, P a → b ∈ f a → P b) {a c : Nat}
    (h : ReachFw f a c) (ha : P a) : P c := by
  induction h with
  | refl => exact ha
  | step he _ ih => exact ih (hP _ _ ha he)

lemma getD_set_self {α : Type} (l : List α) (i : Nat) (x d : α) (h : i < l.length) :
    (l.set i x).getD i d = x := by
  simp [List.getD, List.getElem?_set, h]

lemma getD_set_other {α : Type} (l : List α) (i j : Nat) (x d : α) (h : j ≠ i) :
    (l.set i x).getD j d = l.getD j d := by
  simp [List.getD, List.getElem?_set, Ne.symm h]

lemma getD_set_false (l : List Bool) (i : Nat) : (l.set i false).getD i false = false := by
  by_cases h : i < l.length
  · exact getD_set_self l i false false h
  · rw [List.set_eq_of_length_le (by omega)]
    exact List.getD_eq_default l false (by omega)

lemma getD_oob_int (l : List Int) (i : Nat) (h : l.length ≤ i) : l.getD i (-1) = -1 :=
  List.getD_eq_default l (-1) h

lemma getD_oob_bool (l : List Bool) (i : Nat) (h : l.length ≤ i) : l.getD i false = false :=
  List.getD_eq_default l false h

lemma visited_lt (st : TarjanSt) (v : Nat) (h : visitedV st v) : v < st.indices.length := by
  by_contra hc
  exact h (getD_oob_int st.indices v (by omega))

lemma onStk_lt (st : TarjanSt) (v : Nat) (h : onStk st v) : v < st.onStackV.length := by
  by_contra hc
  rw [onStk, getD_oob_bool st.onStackV v (by omega)] at h
  exact Bool.false_ne_true h

-- observables of pushV
lemma pushV_index (v : Nat) (st : TarjanSt) : (pushV v st).index = st.index + 1 := rfl

lemma pushV_stack (v : Nat) (st : TarjanSt) : (pushV v st).stack = v :: st.stack := rfl

lemma pushV_sccs (v : Nat) (st : TarjanSt) : (pushV v st).sccs = st.sccs := rfl

lemma pushV_len_idx (v : Nat) (st : TarjanSt) :
    (pushV v st).indices.length = st.indices.length := List.length_set ..

lemma pushV_len_low (v : Nat) (st : TarjanSt) :
    (pushV v st).lowlink.length = st.lowlink.length := List.length_set ..

lemma pushV_len_onS (v : Nat) (st : TarjanSt) :
    (pushV v st).onStackV.length = st.onStackV.length := List.length_set ..

lemma idxOf_pushV_self (v : Nat) (st : TarjanSt) (h : v < st.indices.length) :
    idxOf (pushV v st) v = st.index := getD_set_self _ _ _ _ h

lemma idxOf_pushV_other (v u : Nat) (st : TarjanSt) (h : u ≠ v) :
    idxOf (pushV v st) u = idxOf st u := getD_set_other _ _ _ _ _ h

lemma lowOf_pushV_self (v : Nat) (st : TarjanSt) (h : v < st.lowlink.length) :
    lowOf (pushV v st) v = st.index := getD_set_self _ _ _ _ h

lemma lowOf_pushV_other (v u : Nat) (st : TarjanSt) (h : u ≠ v) :
    lowOf (pushV v st) u = lowOf st u := getD_set_other _ _ _ _ _ h

lemma onStk_pushV_self (v : Nat) (st : TarjanSt) (h : v < st.onStackV.length) :
    onStk (pushV v st) v := by
  show (pushV v st).onStackV.getD v false = true
  exact getD_set_self _ _ _ _ h

lemma onStk_pushV_other (v u : Nat) (st : TarjanSt) (h : u ≠ v) :
    onStk (pushV v st) u ↔ onStk st u := by
  show (pushV v st).onStackV.getD u false = true ↔ _
  rw [show (pushV v st).onStackV.getD u false = st.onStackV.getD u false from
    getD_set_other _ _ _ _ _ h]
  exact Iff.rfl

-- observables of updLow
lemma updLow_indices (v : Nat) (x : Int) (st : TarjanSt) :
    (updLow v x st).indices = st.indices := rfl

lemma updLow_onStackV (v : Nat) (x : Int) (st : TarjanSt) :
    (updLow v x st).onStackV = st.onStackV := rfl

lemma updLow_stack (v : Nat) (x : Int) (st : TarjanSt) :
    (updLow v x st).stack = st.stack := rfl

lemma updLow_sccs (v : Nat) (x : Int) (st : TarjanSt) :
    (updLow v x st).sccs = st.sccs := rfl

lemma updLow_index (v : Nat) (x : Int) (st : TarjanSt) :
    (updLow v x st).index = st.index := rfl

lemma updLow_len_low (v : Nat) (x : Int) (st : TarjanSt) :
    (updLow v x st).lowlink.length = st.lowlink.length := List.length_set ..

lemma idxOf_updLow (v : Nat) (x : Int) (st : TarjanSt) (u : Nat) :
    idxOf (updLow v x st) u = idxOf st u := rfl

lemma onStk_updLow (v : Nat) (x : Int) (st : TarjanSt) (u : Nat) :
    onStk (updLow v x st) u ↔ onStk st u := Iff.rfl

lemma visitedV_updLow (v : Nat) (x : Int) (st : TarjanSt) (u : Nat) :
    visitedV (updLow v x st) u ↔ visitedV st u := Iff.rfl

lemma assignedV_updLow (v : Nat) (x : Int) (st : TarjanSt) (u : Nat) :
    assignedV (updLow v x st) u ↔ assignedV st u := Iff.rfl

lemma lowOf_updLow_self (v : Nat) (x : Int) (st : TarjanSt) (h : v < st.lowlink.length) :
    lowOf (updLow v x st) v = min (lowOf st v) x := getD_set_self _ _ _ _ h

lemma lowOf_updLow_other (v : Nat) (x : Int) (st : TarjanSt) (u : Nat) (h : u ≠ v) :
    lowOf (updLow v x st) u = lowOf st u := getD_set_other _ _ _ _ _ h

-- the pop loop
lemma popStack_spec (v : Nat) (T : List Nat) :
    ∀ (R : List Nat) (flags : List Bool) (acc : List Nat), v ∉ T →
    popStack v (T ++ v :: R) flags acc =
      (R, (T ++ [v]).foldl (fun fl w => fl.set w false) flags, acc ++ (T ++ [v])) := by
  induction T with
  | nil =>
    intro R flags acc hv
    simp [popStack]
  | cons a T ih =>
    intro R flags acc hv
    have ha : a ≠ v := fun h => hv (h ▸ List.mem_cons_self a T)
    have hvT : v ∉ T := fun h => hv (List.mem_cons_of_mem a h)
    show popStack v (a :: (T ++ v :: R)) flags acc = _
    rw [popStack, if_neg ha, ih R (flags.set a false) (acc ++ [a]) hvT]
    simp

lemma getD_foldl_setfalse (L : List Nat) (flags : List Bool) (u : Nat) :
    (L.foldl (fun fl w => fl.set w false) flags).getD u false =
      if u ∈ L then false else flags.getD u false := by
  induction L generalizing flags with
  | nil => simp
  | cons a L ih =>
    rw [List.foldl_cons, ih]
    by_cases hu : u ∈ L
    · simp [hu, List.mem_cons]
    · rw [if_neg hu]
      by_cases hau : u = a
      · subst hau
        rw [if_pos (List.mem_cons_self u L)]
        exact getD_set_false flags u
      · rw [if_neg (by simp [hau, hu]), getD_set_other _ _ _ _ _ hau]

/-- Number of not-yet-visited vertices; recursion depth measure. -/
def unvis (ncomp : Nat) (st : TarjanSt) : Nat :=
  ((List.range ncomp).filter (fun u => st.indices.getD u (-1) == -1)).length

lemma filter_length_mono {α : Type} (l : List α) (p q : α → Bool)
    (h : ∀ a ∈ l, q a = true → p a = true) :
    (l.filter q).length ≤ (l.filter p).length := by
  induction l with
  | nil => simp
  | cons a t ih =>
    have ht : ∀ b ∈ t, q b = true → p b = true :=
      fun b hb => h b (List.mem_cons_of_mem a hb)
    by_cases hq : q a = true
    · rw [List.filter_cons_of_pos hq, List.filter_cons_of_pos (h a (List.mem_cons_self a t) hq)]
      simpa using ih ht
    · rw [List.filter_cons_of_neg (by simpa using hq)]
      by_cases hp : p a = true
      · rw [List.filter_cons_of_pos hp]
        exact le_trans (ih ht) (by simp)
      · rw [List.filter_cons_of_neg (by simpa using hp)]
        exact ih ht

lemma filter_length_strict {α : Type} (l : List α) (p q : α → Bool)
    (h : ∀ a ∈ l, q a = true → p a = true) (v : α) (hv : v ∈ l)
    (hp : p v = true) (hq : q v = false) :
    (l.filter q).length < (l.filter p).length := by
  induction l with
  | nil => cases hv
  | cons a t ih =>
    have ht : ∀ b ∈ t, q b = true → p b = true :=
      fun b hb => h b (List.mem_cons_of_mem a hb)
    rcases List.mem_cons.mp hv with rfl | hvt
    · rw [List.filter_cons_of_neg (by simp [hq]), List.filter_cons_of_pos hp]
      have := filter_length_mono t p q ht
      simp only [List.length_cons]
      omega
    · have hlt := ih ht hvt
      by_cases hqa : q a = true
      · rw [List.filter_cons_of_pos hqa, List.filter_cons_of_pos (h a (List.mem_cons_self a t) hqa)]
        simpa using hlt
      · rw [List.filter_cons_of_neg (by simpa using hqa)]
        by_cases hpa : p a = true
        · rw [List.filter_cons_of_pos hpa]
          simp only [List.length_cons]
          omega
        · rw [List.filter_cons_of_neg (by simpa using hpa)]
          exact hlt

lemma unvis_le (ncomp : Nat) (st : TarjanSt) : unvis ncomp st ≤ ncomp := by
  have := List.length_filter_le (fun u => st.indices.getD u (-1) == -1) (List.range ncomp)
  simpa [unvis] using this

lemma unvis_mono (ncomp : Nat) (st st' : TarjanSt)
    (h : ∀ u, visitedV st u → visitedV st' u) :
    unvis ncomp st' ≤ unvis ncomp st := by
  apply filter_length_mono
  intro a _ hq
  by_contra hp
  have hvis : visitedV st a := by
    simpa [visitedV, idxOf] using hp
  have := h a hvis
  simp only [visitedV, idxOf] at this
  simp only [beq_iff_eq] at hq
  exact this hq

lemma unvis_strict (ncomp : Nat) (st st' : TarjanSt) (v : Nat)
    (h : ∀ u, visitedV st u → visitedV st' u)
    (hv : v < ncomp) (hnv : ¬ visitedV st v) (hvis : visitedV st' v) :
    unvis ncomp st' < unvis ncomp st := by
  apply filter_length_strict
  · intro a _ hq
    by_contra hp
    have hvisa : visitedV st a := by
      simpa [visitedV, idxOf] using hp
    have := h a hvisa
    simp only [visitedV, idxOf] at this
    simp only [beq_iff_eq] at hq
    exact this hq
  · exact List.mem_range.mpr hv
  · simp only [visitedV, idxOf, not_not] at hnv
    simpa using hnv
  · simp only [visitedV, idxOf] at hvis
    simpa using hvis

/-- The global invariant of the Tarjan state, relative to the list of
vertices whose `strong_connect` calls are currently open (`grays`). -/
structure TInv (succs : Nat → List Nat) (ncomp : Nat) (st : TarjanSt)
    (grays : List Nat) : Prop where
  len_idx : st.indices.length = ncomp
  len_low : st.lowlink.length = ncomp
  len_onS : st.onStackV.length = ncomp
  index_nn : 0 ≤ st.index
  idx_range : ∀ v, visitedV st v → 0 ≤ idxOf st v ∧ idxOf st v < st.index
  low_nn : ∀ v, visitedV st v → 0 ≤ lowOf st v
  idx_inj : ∀ u v, visitedV st u → visitedV st v → idxOf st u = idxOf st v → u = v
  stack_iff : ∀ v, v ∈ st.stack ↔ onStk st v
  stack_sorted : st.stack.Pairwise (fun a b => idxOf st b < idxOf st a)
  onStk_visited : ∀ v, onStk st v → visitedV st v
  onStk_nassigned : ∀ v, onStk st v → ¬ assignedV st v
  visited_split : ∀ v, visitedV st v → onStk st v ∨ assignedV st v
  assigned_vis : ∀ v, assignedV st v → visitedV st v
  low_le : ∀ v, onStk st v → lowOf st v ≤ idxOf st v
  low_cert : ∀ v, onStk st v → ∃ z, onStk st z ∧ idxOf st z = lowOf st v ∧
      ReachFw (succsT succs) v z
  completed : ∀ v, onStk st v → v ∉ grays → lowOf st v < idxOf st v ∧
      ∀ w ∈ succsT succs v, assignedV st w ∨ (onStk st w ∧ lowOf st v ≤ idxOf st w)
  assigned_closed : ∀ v, assignedV st v → ∀ w ∈ succsT succs v, assignedV st w
  flat_nodup : st.sccs.flatten.Nodup
  sccs_ne : ∀ S ∈ st.sccs, S ≠ []
  sccs_mut : ∀ S ∈ st.sccs, ∀ u ∈ S, ∀ w ∈ S, ReachFw (succsT succs) u w
  sccs_max : ∀ S ∈ st.sccs, ∀ u ∈ S, ∀ z, ReachFw (succsT succs) u z →
      ReachFw (succsT succs) z u → z ∈ S
  grays_onStk : ∀ g ∈ grays, onStk st g

lemma stack_nodup_of_sorted (st : TarjanSt)
    (h : st.stack.Pairwise (fun a b => idxOf st b < idxOf st a)) : st.stack.Nodup := by
  refine h.imp ?_
  intro a b hlt
  intro hab
  subst hab
  exact lt_irrefl _ hlt

lemma assigned_mono (st st' : TarjanSt) (h : ∃ ADD, st'.sccs = st.sccs ++ ADD)
    (u : Nat) (hu : assignedV st u) : assignedV st' u := by
  rcases h with ⟨ADD, hadd⟩
  rcases hu with ⟨S, hS, huS⟩
  exact ⟨S, by rw [hadd]; exact List.mem_append_left _ hS, huS⟩

/-- Postcondition of a single `strong_connect` call on a fresh vertex. -/
structure ScPost (succs : Nat → List Nat) (ncomp v : Nat) (st : TarjanSt)
    (grays : List Nat) (st' : TarjanSt) : Prop where
  inv : TInv succs ncomp st' grays
  vis_v : visitedV st' v
  idx_v : idxOf st' v = st.index
  index_mono : st.index ≤ st'.index
  frame_vis : ∀ u, visitedV st u → visitedV st' u
  frame_idx : ∀ u, visitedV st u → idxOf st' u = idxOf st u
  frame_low : ∀ u, visitedV st u → lowOf st' u = lowOf st u
  frame_onStk : ∀ u, visitedV st u → (onStk st' u ↔ onStk st u)
  sccs_ext : ∃ ADD, st'.sccs = st.sccs ++ ADD
  stack_ext : ∃ NEW, st'.stack = NEW ++ st.stack ∧ ∀ u ∈ NEW, ¬ visitedV st u
  reach_new : ∀ u, ¬ visitedV st u → visitedV st' u → ReachFw (succsT succs) v u
  outcome : (st'.stack = st.stack ∧ assignedV st' v ∧ lowOf st' v = idxOf st' v) ∨ onStk st' v
  postK : ∀ u, onStk st' u → ¬ visitedV st u → lowOf st' v ≤ lowOf st' u

/-- Invariant of the successor loop of `strong_connect v`: `st0` is the
state at entry of the call, `done` the successors already folded over. -/
structure LoopInv (succs : Nat → List Nat) (ncomp v : Nat) (st0 : TarjanSt)
    (grays : List Nat) (done : List Nat) (st : TarjanSt) : Prop where
  inv : TInv succs ncomp st (v :: grays)
  v_fresh : ¬ visitedV st0 v
  vOn : onStk st v
  idx_v : idxOf st v = st0.index
  index_mono : st0.index + 1 ≤ st.index
  frame_vis : ∀ u, visitedV st0 u → visitedV st u
  frame_idx : ∀ u, visitedV st0 u → idxOf st u = idxOf st0 u
  frame_low : ∀ u, visitedV st0 u → lowOf st u = lowOf st0 u
  frame_onStk : ∀ u, visitedV st0 u → (onStk st u ↔ onStk st0 u)
  sccs_ext : ∃ ADD, st.sccs = st0.sccs ++ ADD
  stack_ext : ∃ NEW, st.stack = NEW ++ v :: st0.stack ∧
      ∀ u ∈ NEW, ¬ visitedV st0 u ∧ u ≠ v
  reach_new : ∀ u, u ≠ v → ¬ visitedV st0 u → visitedV st u → ReachFw (succsT succs) v u
  loopK : ∀ u, onStk st u → ¬ visitedV st0 u → lowOf st v ≤ lowOf st u
  mins : ∀ w ∈ done, assignedV st w ∨ (onStk st w ∧ lowOf st v ≤ idxOf st w)

lemma loopInv_init (succs : Nat → List Nat) (ncomp v : Nat) (st0 : TarjanSt)
    (grays : List Nat) (hInv : TInv succs ncomp st0 grays)
    (hnv : ¬ visitedV st0 v) (hv : v < ncomp) :
    LoopInv succs ncomp v st0 grays [] (pushV v st0) := by
  have hvi : v < st0.indices.length := by rw [hInv.len_idx]; exact hv
  have hvl : v < st0.lowlink.length := by rw [hInv.len_low]; exact hv
  have hvo : v < st0.onStackV.length := by rw [hInv.len_onS]; exact hv
  have hidxv : idxOf (pushV v st0) v = st0.index := idxOf_pushV_self v st0 hvi
  have hlowv : lowOf (pushV v st0) v = st0.index := lowOf_pushV_self v st0 hvl
  have honv : onStk (pushV v st0) v := onStk_pushV_self v st0 hvo
  have hvis1 : ∀ u, u ≠ v → (visitedV (pushV v st0) u ↔ visitedV st0 u) := by
    intro u hu
    unfold visitedV
    rw [idxOf_pushV_other v u st0 hu]
  have hvisv : visitedV (pushV v st0) v := by
    unfold visitedV
    rw [hidxv]
    have := hInv.index_nn
    omega
  have hvstack : v ∉ st0.stack := fun hmem =>
    hnv (hInv.onStk_visited v ((hInv.stack_iff v).mp hmem))
  have hvisne : ∀ u, visitedV st0 u → u ≠ v := by
    intro u hu he
    exact hnv (he ▸ hu)
  have hasg : ∀ u, assignedV (pushV v st0) u ↔ assignedV st0 u := fun u => Iff.rfl
  refine { inv := ?_, v_fresh := hnv, vOn := honv, idx_v := hidxv, index_mono := le_refl _,
           frame_vis := ?_, frame_idx := ?_, frame_low := ?_, frame_onStk := ?_,
           sccs_ext := ⟨[], by simp [pushV_sccs]⟩,
           stack_ext := ⟨[], by simp [pushV_stack]⟩,
           reach_new := ?_, loopK := ?_, mins := by intro w hw; cases hw }
  · -- the invariant for the pushed state
    refine { len_idx := by rw [pushV_len_idx, hInv.len_idx],
             len_low := by rw [pushV_len_low, hInv.len_low],
             len_onS := by rw [pushV_len_onS, hInv.len_onS],
             index_nn := by rw [pushV_index]; have := hInv.index_nn; omega,
             idx_range := ?_, low_nn := ?_, idx_inj := ?_, stack_iff := ?_,
             stack_sorted := ?_, onStk_visited := ?_, onStk_nassigned := ?_,
             visited_split := ?_, assigned_vis := ?_, low_le := ?_, low_cert := ?_,
             completed := ?_, assigned_closed := ?_,
             flat_nodup := hInv.flat_nodup, sccs_ne := hInv.sccs_ne,
             sccs_mut := hInv.sccs_mut, sccs_max := hInv.sccs_max,
             grays_onStk := ?_ }
    · intro u hu
      rw [pushV_index]
      by_cases huv : u = v
      · subst huv
        rw [hidxv]
        have := hInv.index_nn
        constructor
        · exact this
        · omega
      · rw [idxOf_pushV_other v u st0 huv]
        have := hInv.idx_range u ((hvis1 u huv).mp hu)
        exact ⟨this.1, by omega⟩
    · intro u hu
      by_cases huv : u = v
      · subst huv
        rw [hlowv]
        exact hInv.index_nn
      · rw [lowOf_pushV_other v u st0 huv]
        exact hInv.low_nn u ((hvis1 u huv).mp hu)
    · intro a b ha hb heq
      by_cases hav : a = v
      · by_cases hbv : b = v
        · rw [hav, hbv]
        · rw [hav, hidxv, idxOf_pushV_other v b st0 hbv] at heq
          have := (hInv.idx_range b ((hvis1 b hbv).mp hb)).2
          omega
      · by_cases hbv : b = v
        · rw [hbv, hidxv, idxOf_pushV_other v a st0 hav] at heq
          have := (hInv.idx_range a ((hvis1 a hav).mp ha)).2
          omega
        · rw [idxOf_pushV_other v a st0 hav, idxOf_pushV_other v b st0 hbv] at heq
          exact hInv.idx_inj a b ((hvis1 a hav).mp ha) ((hvis1 b hbv).mp hb) heq
    · intro u
      rw [pushV_stack]
      by_cases huv : u = v
      · subst huv
        exact iff_of_true (List.mem_cons_self u st0.stack) honv
      · rw [List.mem_cons, onStk_pushV_other v u st0 huv]
        constructor
        · rintro (rfl | h)
          · exact absurd rfl huv
          · exact (hInv.stack_iff u).mp h
        · intro h
          exact Or.inr ((hInv.stack_iff u).mpr h)
    · rw [pushV_stack]
      refine List.pairwise_cons.mpr ⟨?_, ?_⟩
      · intro b hb
        have hbon := (hInv.stack_iff b).mp hb
        have hbvis := hInv.onStk_visited b hbon
        have hbv := hvisne b hbvis
        rw [idxOf_pushV_other v b st0 hbv, hidxv]
        exact (hInv.idx_range b hbvis).2
      · refine List.Pairwise.imp_of_mem ?_ hInv.stack_sorted
        intro a b ha hb hlt
        have hav := hvisne a (hInv.onStk_visited a ((hInv.stack_iff a).mp ha))
        have hbv := hvisne b (hInv.onStk_visited b ((hInv.stack_iff b).mp hb))
        rw [idxOf_pushV_other v a st0 hav, idxOf_pushV_other v b st0 hbv]
        exact hlt
    · intro u hu
      by_cases huv : u = v
      · subst huv
        exact hvisv
      · exact (hvis1 u huv).mpr
          (hInv.onStk_visited u ((onStk_pushV_other v u st0 huv).mp hu))
    · intro u hu hass
      by_cases huv : u = v
      · subst huv
        exact hnv (hInv.assigned_vis u ((hasg u).mp hass))
      · exact hInv.onStk_nassigned u ((onStk_pushV_other v u st0 huv).mp hu)
          ((hasg u).mp hass)
    · intro u hu
      by_cases huv : u = v
      · subst huv
        exact Or.inl honv
      · rcases hInv.visited_split u ((hvis1 u huv).mp hu) with h | h
        · exact Or.inl ((onStk_pushV_other v u st0 huv).mpr h)
        · exact Or.inr ((hasg u).mpr h)
    · intro u hu
      by_cases huv : u = v
      · subst huv
        exact hvisv
      · exact (hvis1 u huv).mpr (hInv.assigned_vis u ((hasg u).mp hu))
    · intro u hu
      by_cases huv : u = v
      · subst huv
        rw [hlowv, hidxv]
      · rw [lowOf_pushV_other v u st0 huv, idxOf_pushV_other v u st0 huv]
        exact hInv.low_le u ((onStk_pushV_other v u st0 huv).mp hu)
    · intro u hu
      by_cases huv : u = v
      · subst huv
        exact ⟨u, honv, by rw [hidxv, hlowv], ReachFw.refl u⟩
      · have hu0 := (onStk_pushV_other v u st0 huv).mp hu
        obtain ⟨z, hz1, hz2, hz3⟩ := hInv.low_cert u hu0
        have hzv := hvisne z (hInv.onStk_visited z hz1)
        exact ⟨z, (onStk_pushV_other v z st0 hzv).mpr hz1,
          by rw [idxOf_pushV_other v z st0 hzv, lowOf_pushV_other v u st0 huv]; exact hz2,
          hz3⟩
    · intro u hu hng
      have huv : u ≠ v := fun h => hng (h ▸ List.mem_cons_self v grays)
      have hug : u ∉ grays := fun h => hng (List.mem_cons_of_mem v h)
      have hu0 := (onStk_pushV_other v u st0 huv).mp hu
      obtain ⟨h1, h2⟩ := hInv.completed u hu0 hug
      constructor
      · rw [lowOf_pushV_other v u st0 huv, idxOf_pushV_other v u st0 huv]
        exact h1
      · intro w hw
        rcases h2 w hw with h | ⟨hwon, hwle⟩
        · exact Or.inl ((hasg w).mpr h)
        · have hwv := hvisne w (hInv.onStk_visited w hwon)
          exact Or.inr ⟨(onStk_pushV_other v w st0 hwv).mpr hwon,
            by rw [lowOf_pushV_other v u st0 huv, idxOf_pushV_other v w st0 hwv]; exact hwle⟩
    · intro u hu w hw
      exact (hasg w).mpr (hInv.assigned_closed u ((hasg u).mp hu) w hw)
    · intro g hg
      rcases List.mem_cons.mp hg with rfl | hg2
      · exact honv
      · have hgon := hInv.grays_onStk g hg2
        have hgv := hvisne g (hInv.onStk_visited g hgon)
        exact (onStk_pushV_other v g st0 hgv).mpr hgon
  · intro u hu
    exact (hvis1 u (hvisne u hu)).mpr hu
  · intro u hu
    exact idxOf_pushV_other v u st0 (hvisne u hu)
  · intro u hu
    exact lowOf_pushV_other v u st0 (hvisne u hu)
  · intro u hu
    exact onStk_pushV_other v u st0 (hvisne u hu)
  · intro u hune hnv0 hvis
    exact absurd ((hvis1 u hune).mp hvis) hnv0
  · intro u hon hnv0
    by_cases huv : u = v
    · subst huv
      exact le_refl _
    · exact absurd (hInv.onStk_visited u ((onStk_pushV_other v u st0 huv).mp hon)) hnv0

lemma TInv_updLow (succs : Nat → List Nat) (ncomp v : Nat) (st : TarjanSt)
    (grays : List Nat) (hInv : TInv succs ncomp st (v :: grays)) (hvOn : onStk st v)
    (x : Int) (hx : 0 ≤ x)
    (hcert : lowOf st v ≤ x ∨
      ∃ z, onStk st z ∧ idxOf st z = x ∧ ReachFw (succsT succs) v z) :
    TInv succs ncomp (updLow v x st) (v :: grays) := by
  have hvis : visitedV st v := hInv.onStk_visited v hvOn
  have hvl : v < st.lowlink.length := by
    rw [hInv.len_low, ← hInv.len_idx]
    exact visited_lt st v hvis
  have hlow : lowOf (updLow v x st) v = min (lowOf st v) x := lowOf_updLow_self v x st hvl
  have hlowo : ∀ u, u ≠ v → lowOf (updLow v x st) u = lowOf st u := fun u h =>
    lowOf_updLow_other v x st u h
  refine { len_idx := hInv.len_idx,
           len_low := by rw [updLow_len_low]; exact hInv.len_low,
           len_onS := hInv.len_onS, index_nn := hInv.index_nn,
           idx_range := hInv.idx_range, low_nn := ?_, idx_inj := hInv.idx_inj,
           stack_iff := hInv.stack_iff, stack_sorted := hInv.stack_sorted,
           onStk_visited := hInv.onStk_visited,
           onStk_nassigned := hInv.onStk_nassigned,
           visited_split := hInv.visited_split, assigned_vis := hInv.assigned_vis,
           low_le := ?_, low_cert := ?_, completed := ?_,
           assigned_closed := hInv.assigned_closed, flat_nodup := hInv.flat_nodup,
           sccs_ne := hInv.sccs_ne, sccs_mut := hInv.sccs_mut,
           sccs_max := hInv.sccs_max, grays_onStk := hInv.grays_onStk }
  · intro u hu
    by_cases huv : u = v
    · rw [huv, hlow]
      exact le_min (hInv.low_nn v hvis) hx
    · rw [hlowo u huv]
      exact hInv.low_nn u hu
  · intro u hu
    by_cases huv : u = v
    · rw [huv, hlow]
      exact le_trans (min_le_left _ _) (hInv.low_le v hvOn)
    · rw [hlowo u huv]
      exact hInv.low_le u hu
  · intro u hu
    by_cases huv : u = v
    · rw [huv, hlow]
      rcases le_or_lt (lowOf st v) x with hle | hlt
      · obtain ⟨z, hz1, hz2, hz3⟩ := hInv.low_cert v hvOn
        exact ⟨z, hz1, by rw [min_eq_left hle]; exact hz2, hz3⟩
      · rcases hcert with hle2 | ⟨z, hz1, hz2, hz3⟩
        · omega
        · exact ⟨z, hz1, by rw [min_eq_right hlt.le]; exact hz2, hz3⟩
    · obtain ⟨z, hz1, hz2, hz3⟩ := hInv.low_cert u hu
      exact ⟨z, hz1, by rw [hlowo u huv]; exact hz2, hz3⟩
  · intro u hu hng
    have huv : u ≠ v := fun h => hng (h ▸ List.mem_cons_self v grays)
    obtain ⟨h1, h2⟩ := hInv.completed u hu hng
    constructor
    · rw [hlowo u huv]
      exact h1
    · intro w hw
      rcases h2 w hw with h | ⟨hwon, hwle⟩
      · exact Or.inl h
      · exact Or.inr ⟨hwon, by rw [hlowo u huv]; exact hwle⟩

lemma loopStep_back (succs : Nat → List Nat) (ncomp v : Nat) (st0 : TarjanSt)
    (grays done : List Nat) (st : TarjanSt)
    (L : LoopInv succs ncomp v st0 grays done st) (w : Nat)
    (hw : w ∈ succsT succs v) (hvisw : visitedV st w) (hon : onStk st w) :
    LoopInv succs ncomp v st0 grays (done ++ [w]) (updLow v (idxOf st w) st) := by
  have hx : 0 ≤ idxOf st w := (L.inv.idx_range w hvisw).1
  have hreach : ReachFw (succsT succs) v w := ReachFw.step hw (ReachFw.refl w)
  have hvisv : visitedV st v := L.inv.onStk_visited v L.vOn
  have hvl : v < st.lowlink.length := by
    rw [L.inv.len_low, ← L.inv.len_idx]
    exact visited_lt st v hvisv
  have hlowv : lowOf (updLow v (idxOf st w) st) v = min (lowOf st v) (idxOf st w) :=
    lowOf_updLow_self v _ st hvl
  have hlowo : ∀ u, u ≠ v → lowOf (updLow v (idxOf st w) st) u = lowOf st u := fun u h =>
    lowOf_updLow_other v _ st u h
  refine { inv := TInv_updLow succs ncomp v st grays L.inv L.vOn (idxOf st w) hx
             (Or.inr ⟨w, hon, rfl, hreach⟩),
           v_fresh := L.v_fresh, vOn := L.vOn, idx_v := L.idx_v,
           index_mono := L.index_mono, frame_vis := L.frame_vis,
           frame_idx := L.frame_idx, frame_low := ?_, frame_onStk := L.frame_onStk,
           sccs_ext := L.sccs_ext, stack_ext := L.stack_ext,
           reach_new := L.reach_new, loopK := ?_, mins := ?_ }
  · intro u hu
    have huv : u ≠ v := fun h => L.v_fresh (h ▸ hu)
    rw [hlowo u huv]
    exact L.frame_low u hu
  · intro u hon2 hnv0
    by_cases huv : u = v
    · rw [huv]
    · rw [hlowo u huv, hlowv]
      exact le_trans (min_le_left _ _) (L.loopK u hon2 hnv0)
  · intro w2 hw2
    rcases List.mem_append.mp hw2 with hdone | hlast
    · rcases L.mins w2 hdone with h | ⟨h1, h2⟩
      · exact Or.inl h
      · exact Or.inr ⟨h1, by
          rw [hlowv]
          exact le_trans (min_le_left _ _) h2⟩
    · have hw2w : w2 = w := by simpa using hlast
      rw [hw2w]
      exact Or.inr ⟨hon, by rw [hlowv]; exact min_le_right _ _⟩

lemma loopStep_skip (succs : Nat → List Nat) (ncomp v : Nat) (st0 : TarjanSt)
    (grays done : List Nat) (st : TarjanSt)
    (L : LoopInv succs ncomp v st0 grays done st) (w : Nat)
    (hvisw : visitedV st w) (hoff : ¬ onStk st w) :
    LoopInv succs ncomp v st0 grays (done ++ [w]) st := by
  refine { inv := L.inv, v_fresh := L.v_fresh, vOn := L.vOn, idx_v := L.idx_v,
           index_mono := L.index_mono, frame_vis := L.frame_vis,
           frame_idx := L.frame_idx, frame_low := L.frame_low,
           frame_onStk := L.frame_onStk, sccs_ext := L.sccs_ext,
           stack_ext := L.stack_ext, reach_new := L.reach_new,
           loopK := L.loopK, mins := ?_ }
  intro w2 hw2
  rcases List.mem_append.mp hw2 with hdone | hlast
  · exact L.mins w2 hdone
  · have hw2w : w2 = w := by simpa using hlast
    rw [hw2w]
    rcases L.inv.visited_split w hvisw with h | h
    · exact absurd h hoff
    · exact Or.inl h

lemma loopStep_rec (succs : Nat → List Nat) (ncomp v : Nat) (st0 : TarjanSt)
    (grays done : List Nat) (st : TarjanSt)
    (L : LoopInv succs ncomp v st0 grays done st) (w : Nat)
    (hw : w ∈ succsT succs v) (hnvw : ¬ visitedV st w) (acc2 : TarjanSt)
    (P : ScPost succs ncomp w st (v :: grays) acc2) :
    LoopInv succs ncomp v st0 grays (done ++ [w]) (updLow v (lowOf acc2 w) acc2) := by
  have hvisv : visitedV st v := L.inv.onStk_visited v L.vOn
  have vOn2 : onStk acc2 v := (P.frame_onStk v hvisv).mpr L.vOn
  have hx : 0 ≤ lowOf acc2 w := P.inv.low_nn w P.vis_v
  have hvl : v < acc2.lowlink.length := by
    rw [P.inv.len_low, ← P.inv.len_idx]
    exact visited_lt acc2 v (P.frame_vis v hvisv)
  have hlowv : lowOf (updLow v (lowOf acc2 w) acc2) v =
      min (lowOf acc2 v) (lowOf acc2 w) := lowOf_updLow_self v _ acc2 hvl
  have hlowo : ∀ u, u ≠ v → lowOf (updLow v (lowOf acc2 w) acc2) u = lowOf acc2 u :=
    fun u h => lowOf_updLow_other v _ acc2 u h
  have hlowvv : lowOf acc2 v = lowOf st v := P.frame_low v hvisv
  have hcert : lowOf acc2 v ≤ lowOf acc2 w ∨
      ∃ z, onStk acc2 z ∧ idxOf acc2 z = lowOf acc2 w ∧ ReachFw (succsT succs) v z := by
    rcases P.outcome with ⟨hstk, hassg, heq⟩ | honB
    · left
      rw [heq, P.idx_v, hlowvv]
      have h1 : lowOf st v ≤ idxOf st v := L.inv.low_le v L.vOn
      have h2 : idxOf st v = st0.index := L.idx_v
      have h3 := L.index_mono
      omega
    · right
      obtain ⟨z, hz1, hz2, hz3⟩ := P.inv.low_cert w honB
      exact ⟨z, hz1, hz2, ReachFw.step hw hz3⟩
  refine { inv := TInv_updLow succs ncomp v acc2 grays P.inv vOn2 (lowOf acc2 w) hx hcert,
           v_fresh := L.v_fresh, vOn := vOn2,
           idx_v := by rw [idxOf_updLow, P.frame_idx v hvisv]; exact L.idx_v,
           index_mono := ?_, frame_vis := ?_, frame_idx := ?_, frame_low := ?_,
           frame_onStk := ?_, sccs_ext := ?_, stack_ext := ?_,
           reach_new := ?_, loopK := ?_, mins := ?_ }
  · rw [updLow_index]
    exact le_trans L.index_mono P.index_mono
  · intro u hu
    exact P.frame_vis u (L.frame_vis u hu)
  · intro u hu
    rw [idxOf_updLow, P.frame_idx u (L.frame_vis u hu)]
    exact L.frame_idx u hu
  · intro u hu
    have huv : u ≠ v := fun h => L.v_fresh (h ▸ hu)
    rw [hlowo u huv, P.frame_low u (L.frame_vis u hu)]
    exact L.frame_low u hu
  · intro u hu
    rw [show onStk (updLow v (lowOf acc2 w) acc2) u ↔ onStk acc2 u from Iff.rfl,
      P.frame_onStk u (L.frame_vis u hu)]
    exact L.frame_onStk u hu
  · obtain ⟨A1, hA1⟩ := L.sccs_ext
    obtain ⟨A2, hA2⟩ := P.sccs_ext
    exact ⟨A1 ++ A2, by rw [updLow_sccs, hA2, hA1, List.append_assoc]⟩
  · obtain ⟨N1, hN1, hN1f⟩ := L.stack_ext
    obtain ⟨N2, hN2, hN2f⟩ := P.stack_ext
    refine ⟨N2 ++ N1, by rw [updLow_stack, hN2, hN1, List.append_assoc], ?_⟩
    intro u hu
    rcases List.mem_append.mp hu with h | h
    · have hnu := hN2f u h
      constructor
      · intro hc
        exact hnu (L.frame_vis u hc)
      · intro hc
        exact hnu (hc ▸ hvisv)
    · exact hN1f u h
  · intro u hune hnv0 hvis2
    by_cases hvst : visitedV st u
    · exact L.reach_new u hune hnv0 hvst
    · exact ReachFw.step hw (P.reach_new u hvst hvis2)
  · intro u honu hnv0
    by_cases huv : u = v
    · rw [huv]
    · rw [hlowo u huv, hlowv]
      have honu2 : onStk acc2 u := honu
      by_cases hvst : visitedV st u
      · rw [P.frame_low u hvst]
        refine le_trans (min_le_left _ _) ?_
        rw [hlowvv]
        exact L.loopK u ((P.frame_onStk u hvst).mp honu2) hnv0
      · exact le_trans (min_le_right _ _) (P.postK u honu2 hvst)
  · intro w2 hw2
    rcases List.mem_append.mp hw2 with hdone | hlast
    · rcases L.mins w2 hdone with h | ⟨h1, h2⟩
      · exact Or.inl (assigned_mono st (updLow v (lowOf acc2 w) acc2)
          (by obtain ⟨A2, hA2⟩ := P.sccs_ext; exact ⟨A2, by rw [updLow_sccs, hA2]⟩) w2 h)
      · have hvisw2 : visitedV st w2 := L.inv.onStk_visited w2 h1
        refine Or.inr ⟨?_, ?_⟩
        · show onStk acc2 w2
          exact (P.frame_onStk w2 hvisw2).mpr h1
        · rw [hlowv, idxOf_updLow, P.frame_idx w2 hvisw2]
          refine le_trans (min_le_left _ _) ?_
          rw [hlowvv]
          exact h2
    · have hw2w : w2 = w := by simpa using hlast
      rw [hw2w]
      rcases P.outcome with ⟨hstk, hassg, heq⟩ | honB
      · exact Or.inl hassg
      · refine Or.inr ⟨honB, ?_⟩
        rw [hlowv, idxOf_updLow]
        exact le_trans (min_le_right _ _) (P.inv.low_le w honB)

lemma scLoop_spec (succs : Nat → List Nat) (ncomp v : Nat) (st0 : TarjanSt)
    (grays : List Nat) (fuel : Nat)
    (IH : ∀ w st, TInv succs ncomp st (v :: grays) → ¬ visitedV st w → w < ncomp →
      unvis ncomp st < fuel → ScPost succs ncomp w st (v :: grays) (scVisit succs fuel w st))
    (hrange : ∀ w ∈ succsT succs v, w < ncomp)
    (hfuel : unvis ncomp st0 ≤ fuel) :
    ∀ (ws done : List Nat) (st : TarjanSt),
      (∀ w ∈ ws, w ∈ succsT succs v) →
      LoopInv succs ncomp v st0 grays done st →
      LoopInv succs ncomp v st0 grays (done ++ ws)
        (ws.foldl (scStep (fun w acc => scVisit succs fuel w acc) v) st) := by
  intro ws
  induction ws with
  | nil =>
    intro done st hmem L
    simpa using L
  | cons w ws ih =>
    intro done st hmem L
    have hwmem : w ∈ succsT succs v := hmem w (List.mem_cons_self w ws)
    have hmem2 : ∀ x ∈ ws, x ∈ succsT succs v := fun x hx =>
      hmem x (List.mem_cons_of_mem w hx)
    have hvlt : v < ncomp := by
      have := onStk_lt st v L.vOn
      rw [L.inv.len_onS] at this
      exact this
    have hvisv : visitedV st v := L.inv.onStk_visited v L.vOn
    rw [List.foldl_cons, show done ++ w :: ws = (done ++ [w]) ++ ws by simp]
    by_cases h1 : st.indices.getD w (-1) = -1
    · have hnvw : ¬ visitedV st w := fun hc => hc h1
      have hufuel : unvis ncomp st < fuel :=
        lt_of_lt_of_le (unvis_strict ncomp st0 st v L.frame_vis hvlt L.v_fresh hvisv) hfuel
      have P := IH w st L.inv hnvw (hrange w hwmem) hufuel
      have step_eq : scStep (fun w acc => scVisit succs fuel w acc) v st w =
          updLow v (lowOf (scVisit succs fuel w st) w) (scVisit succs fuel w st) := by
        unfold scStep
        split
        next h => rfl
        next h => exact absurd h1 h
      rw [step_eq]
      exact ih (done ++ [w]) _ hmem2 (loopStep_rec succs ncomp v st0 grays done st L w
        hwmem hnvw _ P)
    · have hvisw : visitedV st w := h1
      by_cases h2 : st.onStackV.getD w false = true
      · have step_eq : scStep (fun w acc => scVisit succs fuel w acc) v st w =
            updLow v (idxOf st w) st := by
          unfold scStep
          split
          next h => exact absurd h h1
          next h => rfl
        rw [step_eq]
        exact ih (done ++ [w]) _ hmem2 (loopStep_back succs ncomp v st0 grays done st L w
          hwmem hvisw h2)
      · have step_eq : scStep (fun w acc => scVisit succs fuel w acc) v st w = st := by
          unfold scStep
          split
          next h => exact absurd h h1
          next h => rfl
        rw [step_eq]
        exact ih (done ++ [w]) _ hmem2 (loopStep_skip succs ncomp v st0 grays done st L w
          hvisw h2)

lemma scNoPop_spec (succs : Nat → List Nat) (ncomp v : Nat) (st : TarjanSt)
    (grays : List Nat) (hnv : ¬ visitedV st v) (st2 : TarjanSt)
    (L : LoopInv succs ncomp v st grays (succsT succs v) st2)
    (hnpop : lowOf st2 v ≠ idxOf st2 v) :
    ScPost succs ncomp v st grays st2 := by
  have hvis2 : visitedV st2 v := L.inv.onStk_visited v L.vOn
  have hlt : lowOf st2 v < idxOf st2 v := lt_of_le_of_ne (L.inv.low_le v L.vOn) hnpop
  refine { inv := ?_, vis_v := hvis2, idx_v := L.idx_v,
           index_mono := by have := L.index_mono; omega,
           frame_vis := L.frame_vis, frame_idx := L.frame_idx,
           frame_low := L.frame_low, frame_onStk := L.frame_onStk,
           sccs_ext := L.sccs_ext, stack_ext := ?_, reach_new := ?_,
           outcome := Or.inr L.vOn, postK := L.loopK }
  · -- downgrade the invariant from grays (v :: grays) to grays
    refine { len_idx := L.inv.len_idx, len_low := L.inv.len_low,
             len_onS := L.inv.len_onS, index_nn := L.inv.index_nn,
             idx_range := L.inv.idx_range, low_nn := L.inv.low_nn,
             idx_inj := L.inv.idx_inj, stack_iff := L.inv.stack_iff,
             stack_sorted := L.inv.stack_sorted,
             onStk_visited := L.inv.onStk_visited,
             onStk_nassigned := L.inv.onStk_nassigned,
             visited_split := L.inv.visited_split,
             assigned_vis := L.inv.assigned_vis, low_le := L.inv.low_le,
             low_cert := L.inv.low_cert, completed := ?_,
             assigned_closed := L.inv.assigned_closed,
             flat_nodup := L.inv.flat_nodup, sccs_ne := L.inv.sccs_ne,
             sccs_mut := L.inv.sccs_mut, sccs_max := L.inv.sccs_max,
             grays_onStk := fun g hg => L.inv.grays_onStk g (List.mem_cons_of_mem v hg) }
    intro u hu hng
    by_cases huv : u = v
    · rw [huv]
      exact ⟨hlt, fun w hw => L.mins w hw⟩
    · exact L.inv.completed u hu (by
        intro hc
        rcases List.mem_cons.mp hc with h | h
        · exact huv h
        · exact hng h)
  · obtain ⟨NEW, hstk, hNEWf⟩ := L.stack_ext
    refine ⟨NEW ++ [v], by rw [hstk]; simp, ?_⟩
    intro u hu
    rcases List.mem_append.mp hu with h | h
    · exact (hNEWf u h).1
    · rw [show u = v by simpa using h]
      exact hnv
  · intro u hu1 hu2
    by_cases huv : u = v
    · rw [huv]
      exact ReachFw.refl v
    · exact L.reach_new u huv hu1 hu2

lemma foldl_setfalse_length (L : List Nat) : ∀ (fl : List Bool),
    (L.foldl (fun f w => f.set w false) fl).length = fl.length := by
  induction L with
  | nil => intro fl; rfl
  | cons a L ih =>
    intro fl
    rw [List.foldl_cons, ih, List.length_set]

lemma scPop_spec (succs : Nat → List Nat) (ncomp v : Nat) (st : TarjanSt)
    (grays : List Nat) (hInv : TInv succs ncomp st grays) (hnv : ¬ visitedV st v)
    (st2 : TarjanSt) (L : LoopInv succs ncomp v st grays (succsT succs v) st2)
    (hpop : lowOf st2 v = idxOf st2 v) :
    ScPost succs ncomp v st grays (popScc v st2) := by
  obtain ⟨NEW, hstk2, hNEWf⟩ := L.stack_ext
  have hvNotNEW : v ∉ NEW := fun h => (hNEWf v h).2 rfl
  have hps : popStack v st2.stack st2.onStackV [] =
      (st.stack, (NEW ++ [v]).foldl (fun fl w => fl.set w false) st2.onStackV,
        [] ++ (NEW ++ [v])) := by
    rw [hstk2]
    exact popStack_spec v NEW st.stack st2.onStackV [] hvNotNEW
  have h3stack : (popScc v st2).stack = st.stack := by
    simp only [popScc, hps]
  have h3sccs : (popScc v st2).sccs = st2.sccs ++ [NEW ++ [v]] := by
    simp only [popScc, hps, List.nil_append]
  have h3onSV : (popScc v st2).onStackV =
      (NEW ++ [v]).foldl (fun fl w => fl.set w false) st2.onStackV := by
    simp only [popScc, hps]
  have h3idx : ∀ u, idxOf (popScc v st2) u = idxOf st2 u := fun u => rfl
  have h3low : ∀ u, lowOf (popScc v st2) u = lowOf st2 u := fun u => rfl
  have h3vis : ∀ u, visitedV (popScc v st2) u ↔ visitedV st2 u := fun u => Iff.rfl
  have h3on : ∀ u, onStk (popScc v st2) u ↔ (u ∉ NEW ++ [v] ∧ onStk st2 u) := by
    intro u
    unfold onStk
    rw [h3onSV, getD_foldl_setfalse]
    by_cases hu : u ∈ NEW ++ [v]
    · simp [hu]
    · simp [hu]
  have h3asg : ∀ u, assignedV (popScc v st2) u ↔ (assignedV st2 u ∨ u ∈ NEW ++ [v]) := by
    intro u
    unfold assignedV
    rw [h3sccs]
    constructor
    · rintro ⟨T, hT, huT⟩
      rcases List.mem_append.mp hT with h | h
      · exact Or.inl ⟨T, h, huT⟩
      · right
        rw [← show T = NEW ++ [v] by simpa using h]
        exact huT
    · rintro (⟨T, hT, huT⟩ | h)
      · exact ⟨T, List.mem_append_left _ hT, huT⟩
      · exact ⟨NEW ++ [v], List.mem_append_right _ (by simp), h⟩
  have hvis2 : visitedV st2 v := L.inv.onStk_visited v L.vOn
  have hidx0 : 0 ≤ idxOf st2 v := (L.inv.idx_range v hvis2).1
  have hpw2 : (NEW ++ v :: st.stack).Pairwise (fun a b => idxOf st2 b < idxOf st2 a) :=
    hstk2 ▸ L.inv.stack_sorted
  obtain ⟨hpwN, hpwVR, hcross⟩ := List.pairwise_append.mp hpw2
  have hpwR : st.stack.Pairwise (fun a b => idxOf st2 b < idxOf st2 a) :=
    (List.pairwise_cons.mp hpwVR).2
  have hvR : ∀ b ∈ st.stack, idxOf st2 b < idxOf st2 v :=
    (List.pairwise_cons.mp hpwVR).1
  have hNv : ∀ a ∈ NEW, idxOf st2 v < idxOf st2 a := fun a ha =>
    hcross a ha v (List.mem_cons_self _ _)
  have hNR : ∀ a ∈ NEW, ∀ b ∈ st.stack, idxOf st2 b < idxOf st2 a := fun a ha b hb =>
    hcross a ha b (List.mem_cons_of_mem _ hb)
  have hnd2 : (NEW ++ v :: st.stack).Nodup := by
    rw [← hstk2]
    exact stack_nodup_of_sorted st2 L.inv.stack_sorted
  have hvNotR : v ∉ st.stack := fun hc => lt_irrefl _ (hvR v hc)
  have hNnotR : ∀ u ∈ NEW, u ∉ st.stack := fun u hu hc => lt_irrefl _ (hNR u hu u hc)
  have hmemS : ∀ u, u ∈ NEW ++ [v] ↔ (u ∈ NEW ∨ u = v) := by
    intro u
    simp
  have hstk2mem : ∀ u, onStk st2 u ↔ u ∈ NEW ++ v :: st.stack := by
    intro u
    rw [← hstk2]
    exact (L.inv.stack_iff u).symm
  have hSchar : ∀ u, u ∈ NEW ++ [v] ↔ (onStk st2 u ∧ idxOf st2 v ≤ idxOf st2 u) := by
    intro u
    rw [hmemS u]
    constructor
    · rintro (h | rfl)
      · exact ⟨(hstk2mem u).mpr (List.mem_append_left _ h), le_of_lt (hNv u h)⟩
      · exact ⟨L.vOn, le_refl _⟩
    · rintro ⟨hon, hle⟩
      rcases List.mem_append.mp ((hstk2mem u).mp hon) with h | h
      · exact Or.inl h
      · rcases List.mem_cons.mp h with h | h
        · exact Or.inr h
        · exact absurd hle (not_le.mpr (hvR u h))
  have hgrayvis : ∀ g ∈ grays, visitedV st g := fun g hg =>
    hInv.onStk_visited g (hInv.grays_onStk g hg)
  have hvNotG : v ∉ grays := fun hc => hnv (hgrayvis v hc)
  have hNg : ∀ u ∈ NEW, u ∉ v :: grays := by
    intro u hu hc
    rcases List.mem_cons.mp hc with h | h
    · exact (hNEWf u hu).2 h
    · exact (hNEWf u hu).1 (hgrayvis u h)
  have hNon : ∀ u ∈ NEW, onStk st2 u := fun u hu =>
    (hstk2mem u).mpr (List.mem_append_left _ hu)
  have hcompN : ∀ u ∈ NEW, lowOf st2 u < idxOf st2 u ∧
      ∀ w ∈ succsT succs u, assignedV st2 w ∨
        (onStk st2 w ∧ lowOf st2 u ≤ idxOf st2 w) := fun u hu =>
    L.inv.completed u (hNon u hu) (hNg u hu)
  have hKN : ∀ u ∈ NEW, idxOf st2 v ≤ lowOf st2 u := by
    intro u hu
    have := L.loopK u (hNon u hu) (hNEWf u hu).1
    rw [hpop] at this
    exact this
  have hSon : ∀ u ∈ NEW ++ [v], onStk st2 u := fun u hu => ((hSchar u).mp hu).1
  have hSvis : ∀ u ∈ NEW ++ [v], visitedV st2 u := fun u hu =>
    L.inv.onStk_visited u (hSon u hu)
  have hSnassg : ∀ u ∈ NEW ++ [v], ¬ assignedV st2 u := fun u hu =>
    L.inv.onStk_nassigned u (hSon u hu)
  have hvS : v ∈ NEW ++ [v] := (hmemS v).mpr (Or.inr rfl)
  have back : ∀ u ∈ NEW ++ [v], ReachFw (succsT succs) u v := by
    have main : ∀ k u, u ∈ NEW ++ [v] → (idxOf st2 u).toNat ≤ k →
        ReachFw (succsT succs) u v := by
      intro k
      induction k with
      | zero =>
        intro u huS htn
        have h1 : idxOf st2 v ≤ idxOf st2 u := ((hSchar u).mp huS).2
        have heq : idxOf st2 u = idxOf st2 v := by omega
        rw [L.inv.idx_inj u v (hSvis u huS) hvis2 heq]
        exact ReachFw.refl v
      | succ k ihk =>
        intro u huS htn
        by_cases huv : u = v
        · rw [huv]
          exact ReachFw.refl v
        · have huN : u ∈ NEW := by
            rcases (hmemS u).mp huS with h | h
            · exact h
            · exact absurd h huv
          have hlt2 := (hcompN u huN).1
          obtain ⟨z, hz1, hz2, hz3⟩ := L.inv.low_cert u (hNon u huN)
          have hzK : idxOf st2 v ≤ idxOf st2 z := by
            rw [hz2]
            exact hKN u huN
          have hzS : z ∈ NEW ++ [v] := (hSchar z).mpr ⟨hz1, hzK⟩
          have h0 : 0 ≤ lowOf st2 u := le_trans hidx0 (hKN u huN)
          have hzn : (idxOf st2 z).toNat ≤ k := by
            rw [hz2]
            omega
          exact reach_trans hz3 (ihk z hzS hzn)
    intro u hu
    exact main (idxOf st2 u).toNat u hu (le_refl _)
  have fwd : ∀ x, ReachFw (succsT succs) v x →
      x ∈ NEW ++ [v] ∨ assignedV st2 x := by
    intro x hx
    refine reach_closure (fun y => y ∈ NEW ++ [v] ∨ assignedV st2 y) ?_ hx (Or.inl hvS)
    intro a b hPa hb
    rcases hPa with haS | haA
    · by_cases hav : a = v
      · rcases L.mins b (by rw [← hav]; exact hb) with h | ⟨hbon, hble⟩
        · exact Or.inr h
        · refine Or.inl ((hSchar b).mpr ⟨hbon, ?_⟩)
          rw [← hpop]
          exact hble
      · have haN : a ∈ NEW := by
          rcases (hmemS a).mp haS with h | h
          · exact h
          · exact absurd h hav
        rcases (hcompN a haN).2 b hb with h | ⟨hbon, hble⟩
        · exact Or.inr h
        · exact Or.inl ((hSchar b).mpr ⟨hbon, le_trans (hKN a haN) hble⟩)
    · exact Or.inr (L.inv.assigned_closed a haA b hb)
  have hmax : ∀ z, ReachFw (succsT succs) v z → ReachFw (succsT succs) z v →
      z ∈ NEW ++ [v] := by
    intro z h1 h2
    rcases fwd z h1 with h | h
    · exact h
    · exact absurd (reach_closure (assignedV st2)
          (fun a b ha hb => L.inv.assigned_closed a ha b hb) h2 h)
        (L.inv.onStk_nassigned v L.vOn)
  have hmutS : ∀ a ∈ NEW ++ [v], ∀ b ∈ NEW ++ [v], ReachFw (succsT succs) a b := by
    intro a ha b hb
    refine reach_trans (back a ha) ?_
    by_cases hbv : b = v
    · rw [hbv]
      exact ReachFw.refl v
    · have hbN : b ∈ NEW := by
        rcases (hmemS b).mp hb with h | h
        · exact h
        · exact absurd h hbv
      exact L.reach_new b hbv (hNEWf b hbN).1 (hSvis b hb)
  have hSnd : (NEW ++ [v]).Nodup := by
    have hsub : (NEW ++ [v]).Sublist (NEW ++ v :: st.stack) :=
      List.Sublist.append_left (List.cons_sublist_cons.mpr (List.nil_sublist _)) NEW
    exact List.Nodup.sublist hsub hnd2
  have hstack3mem : ∀ u, onStk (popScc v st2) u → u ∈ st.stack := by
    intro u hu
    obtain ⟨hnotS, hon2⟩ := (h3on u).mp hu
    rcases List.mem_append.mp ((hstk2mem u).mp hon2) with h | h
    · exact absurd ((hmemS u).mpr (Or.inl h)) hnotS
    · rcases List.mem_cons.mp h with h | h
      · exact absurd ((hmemS u).mpr (Or.inr h)) hnotS
      · exact h
  have hinv3 : TInv succs ncomp (popScc v st2) grays := by
    refine { len_idx := L.inv.len_idx, len_low := L.inv.len_low,
             len_onS := by rw [h3onSV, foldl_setfalse_length]; exact L.inv.len_onS,
             index_nn := L.inv.index_nn, idx_range := L.inv.idx_range,
             low_nn := L.inv.low_nn, idx_inj := L.inv.idx_inj,
             stack_iff := ?_, stack_sorted := ?_, onStk_visited := ?_,
             onStk_nassigned := ?_, visited_split := ?_, assigned_vis := ?_,
             low_le := ?_, low_cert := ?_, completed := ?_, assigned_closed := ?_,
             flat_nodup := ?_, sccs_ne := ?_, sccs_mut := ?_, sccs_max := ?_,
             grays_onStk := ?_ }
    · intro u
      rw [h3stack, h3on u]
      constructor
      · intro hu
        refine ⟨?_, (hstk2mem u).mpr (by
          exact List.mem_append_right _ (List.mem_cons_of_mem _ hu))⟩
        intro hc
        rcases (hmemS u).mp hc with h | h
        · exact hNnotR u h hu
        · rw [h] at hu
          exact hvNotR hu
      · rintro ⟨hnotS, hon2⟩
        exact hstack3mem u ((h3on u).mpr ⟨hnotS, hon2⟩)
    · rw [h3stack]
      exact hpwR
    · intro u hu
      exact L.inv.onStk_visited u ((h3on u).mp hu).2
    · intro u hu hass
      obtain ⟨hnotS, hon2⟩ := (h3on u).mp hu
      rcases (h3asg u).mp hass with h | h
      · exact L.inv.onStk_nassigned u hon2 h
      · exact hnotS h
    · intro u hu
      rcases L.inv.visited_split u hu with h | h
      · by_cases huS : u ∈ NEW ++ [v]
        · exact Or.inr ((h3asg u).mpr (Or.inr huS))
        · exact Or.inl ((h3on u).mpr ⟨huS, h⟩)
      · exact Or.inr ((h3asg u).mpr (Or.inl h))
    · intro u hu
      rcases (h3asg u).mp hu with h | h
      · exact L.inv.assigned_vis u h
      · exact hSvis u h
    · intro u hu
      exact L.inv.low_le u ((h3on u).mp hu).2
    · intro u hu
      obtain ⟨hnotS, hon2⟩ := (h3on u).mp hu
      obtain ⟨z, hz1, hz2, hz3⟩ := L.inv.low_cert u hon2
      have huR : u ∈ st.stack := hstack3mem u hu
      have hidxu : idxOf st2 u < idxOf st2 v := hvR u huR
      have hlowu : lowOf st2 u ≤ idxOf st2 u := L.inv.low_le u hon2
      have hzNotS : z ∉ NEW ++ [v] := by
        intro hc
        have := ((hSchar z).mp hc).2
        omega
      exact ⟨z, (h3on z).mpr ⟨hzNotS, hz1⟩, hz2, hz3⟩
    · intro u hu hug
      obtain ⟨hnotS, hon2⟩ := (h3on u).mp hu
      have hunv : u ∉ v :: grays := by
        intro hc
        rcases List.mem_cons.mp hc with h | h
        · exact hnotS (h ▸ hvS)
        · exact hug h
      obtain ⟨h1, h2⟩ := L.inv.completed u hon2 hunv
      refine ⟨h1, ?_⟩
      intro w hw
      rcases h2 w hw with h | ⟨hwon, hwle⟩
      · exact Or.inl ((h3asg w).mpr (Or.inl h))
      · by_cases hwS : w ∈ NEW ++ [v]
        · exact Or.inl ((h3asg w).mpr (Or.inr hwS))
        · exact Or.inr ⟨(h3on w).mpr ⟨hwS, hwon⟩, hwle⟩
    · intro a ha w hw
      rcases (h3asg a).mp ha with h | h
      · exact (h3asg w).mpr (Or.inl (L.inv.assigned_closed a h w hw))
      · have hva : ReachFw (succsT succs) v a := hmutS v hvS a h
        have hvw : ReachFw (succsT succs) v w := reach_snoc hva hw
        rcases fwd w hvw with h2 | h2
        · exact (h3asg w).mpr (Or.inr h2)
        · exact (h3asg w).mpr (Or.inl h2)
    · rw [h3sccs]
      rw [List.flatten_append]
      refine List.Nodup.append L.inv.flat_nodup (by simpa using hSnd) ?_
      intro a ha hb
      have haA : assignedV st2 a := by
        obtain ⟨T, hT, haT⟩ := List.mem_flatten.mp ha
        exact ⟨T, hT, haT⟩
      have hbS : a ∈ NEW ++ [v] := by simpa using hb
      exact hSnassg a hbS haA
    · intro T hT
      rw [h3sccs] at hT
      rcases List.mem_append.mp hT with h | h
      · exact L.inv.sccs_ne T h
      · rw [show T = NEW ++ [v] by simpa using h]
        simp
    · intro T hT
      rw [h3sccs] at hT
      rcases List.mem_append.mp hT with h | h
      · exact L.inv.sccs_mut T h
      · rw [show T = NEW ++ [v] by simpa using h]
        exact hmutS
    · intro T hT
      rw [h3sccs] at hT
      rcases List.mem_append.mp hT with h | h
      · exact L.inv.sccs_max T h
      · rw [show T = NEW ++ [v] by simpa using h]
        intro u hu z h1 h2
        have hvu : ReachFw (succsT succs) v u := hmutS v hvS u hu
        have huv2 : ReachFw (succsT succs) u v := back u hu
        exact hmax z (reach_trans hvu h1) (reach_trans h2 huv2)
    · intro g hg
      have hon2 : onStk st2 g := L.inv.grays_onStk g (List.mem_cons_of_mem v hg)
      have hgNotS : g ∉ NEW ++ [v] := by
        intro hc
        rcases (hmemS g).mp hc with h | h
        · exact (hNEWf g h).1 (hgrayvis g hg)
        · exact hvNotG (h ▸ hg)
      exact (h3on g).mpr ⟨hgNotS, hon2⟩
  have h3index : (popScc v st2).index = st2.index := rfl
  refine { inv := hinv3, vis_v := hvis2, idx_v := L.idx_v,
           index_mono := by rw [h3index]; have := L.index_mono; omega,
           frame_vis := L.frame_vis, frame_idx := L.frame_idx,
           frame_low := L.frame_low, frame_onStk := ?_,
           sccs_ext := ?_, stack_ext := ⟨[], by rw [h3stack]; simp, by simp⟩,
           reach_new := ?_, outcome := ?_, postK := ?_ }
  · intro u hu
    have huNotS : u ∉ NEW ++ [v] := by
      intro hc
      rcases (hmemS u).mp hc with h | h
      · exact (hNEWf u h).1 hu
      · exact hnv (h ▸ hu)
    rw [h3on u]
    constructor
    · rintro ⟨h1, h2⟩
      exact (L.frame_onStk u hu).mp h2
    · intro h
      exact ⟨huNotS, (L.frame_onStk u hu).mpr h⟩
  · obtain ⟨ADD, hADD⟩ := L.sccs_ext
    exact ⟨ADD ++ [NEW ++ [v]], by rw [h3sccs, hADD, List.append_assoc]⟩
  · intro u hu1 hu2
    by_cases huv : u = v
    · rw [huv]
      exact ReachFw.refl v
    · exact L.reach_new u huv hu1 ((h3vis u).mp hu2)
  · refine Or.inl ⟨h3stack, (h3asg v).mpr (Or.inr hvS), ?_⟩
    rw [h3low, h3idx]
    exact hpop
  · intro u hu hnu
    exact absurd (hInv.onStk_visited u ((hInv.stack_iff u).mp (hstack3mem u hu))) hnu

lemma scVisit_succ (succs : Nat → List Nat) (fuel v : Nat) (st st2 : TarjanSt)
    (h : st2 = (succsT succs v).foldl
      (scStep (fun w acc => scVisit succs fuel w acc) v) (pushV v st)) :
    scVisit succs (fuel + 1) v st =
      if lowOf st2 v = idxOf st2 v then popScc v st2 else st2 := by
  subst h
  rfl

lemma scVisit_spec (succs : Nat → List Nat) (ncomp : Nat)
    (hS : ∀ a b, b ∈ succs a → b < ncomp) :
    ∀ fuel v st grays, TInv succs ncomp st grays → ¬ visitedV st v → v < ncomp →
      unvis ncomp st < fuel →
      ScPost succs ncomp v st grays (scVisit succs fuel v st) := by
  intro fuel
  induction fuel with
  | zero =>
    intro v st grays hInv hnv hvlt hfuel
    omega
  | succ fuel ihf =>
    intro v st grays hInv hnv hvlt hfuel
    have hrange : ∀ w ∈ succsT succs v, w < ncomp := fun w hw =>
      hS v w (List.mem_of_mem_filter hw)
    have L0 := loopInv_init succs ncomp v st grays hInv hnv hvlt
    have hfuel2 : unvis ncomp st ≤ fuel := by omega
    have IH : ∀ w stx, TInv succs ncomp stx (v :: grays) → ¬ visitedV stx w →
        w < ncomp → unvis ncomp stx < fuel →
        ScPost succs ncomp w stx (v :: grays) (scVisit succs fuel w stx) :=
      fun w stx hi hn hw hf => ihf w stx (v :: grays) hi hn hw hf
    have L := scLoop_spec succs ncomp v st grays fuel IH hrange hfuel2
      (succsT succs v) [] (pushV v st) (fun w hw => hw) L0
    rw [List.nil_append] at L
    rw [scVisit_succ succs fuel v st _ rfl]
    by_cases hpop : lowOf ((succsT succs v).foldl
        (scStep (fun w acc => scVisit succs fuel w acc) v) (pushV v st)) v =
        idxOf ((succsT succs v).foldl
        (scStep (fun w acc => scVisit succs fuel w acc) v) (pushV v st)) v
    · rw [if_pos hpop]
      exact scPop_spec succs ncomp v st grays hInv hnv _ L hpop
    · rw [if_neg hpop]
      exact scNoPop_spec succs ncomp v st grays hnv _ L hpop

lemma getD_replicate_int (n u : Nat) : (List.replicate n (-1 : Int)).getD u (-1) = -1 := by
  by_cases h : u < n
  · rw [List.getD_eq_getElem _ _ (by simpa using h)]
    simp
  · exact List.getD_eq_default _ _ (by simpa using not_lt.mp h)

lemma getD_replicate_bool (n u : Nat) : (List.replicate n false).getD u false = false := by
  by_cases h : u < n
  · rw [List.getD_eq_getElem _ _ (by simpa using h)]
    simp
  · exact List.getD_eq_default _ _ (by simpa using not_lt.mp h)

lemma tarjanInit_inv (succs : Nat → List Nat) (ncomp : Nat) :
    TInv succs ncomp (tarjanInit ncomp) [] := by
  have hvis : ∀ u, ¬ visitedV (tarjanInit ncomp) u := by
    intro u hc
    exact hc (getD_replicate_int ncomp u)
  have hon : ∀ u, ¬ onStk (tarjanInit ncomp) u := by
    intro u hc
    rw [onStk, show (tarjanInit ncomp).onStackV = List.replicate ncomp false from rfl,
      getD_replicate_bool ncomp u] at hc
    exact Bool.false_ne_true hc
  have hasg : ∀ u, ¬ assignedV (tarjanInit ncomp) u := by
    rintro u ⟨S, hS, -⟩
    cases hS
  refine { len_idx := List.length_replicate .., len_low := List.length_replicate ..,
           len_onS := List.length_replicate .., index_nn := le_refl 0,
           idx_range := fun v hv => absurd hv (hvis v),
           low_nn := fun v hv => absurd hv (hvis v),
           idx_inj := fun u v hu => absurd hu (hvis u),
           stack_iff := fun v => iff_of_false (by simp [tarjanInit]) (hon v),
           stack_sorted := List.Pairwise.nil,
           onStk_visited := fun v hv => absurd hv (hon v),
           onStk_nassigned := fun v hv => absurd hv (hon v),
           visited_split := fun v hv => absurd hv (hvis v),
           assigned_vis := fun v hv => absurd hv (hasg v),
           low_le := fun v hv => absurd hv (hon v),
           low_cert := fun v hv => absurd hv (hon v),
           completed := fun v hv => absurd hv (hon v),
           assigned_closed := fun v hv => absurd hv (hasg v),
           flat_nodup := List.Pairwise.nil, sccs_ne := by rintro S ⟨⟩,
           sccs_mut := by rintro S ⟨⟩, sccs_max := by rintro S ⟨⟩,
           grays_onStk := by rintro g ⟨⟩ }

lemma tarjanRun_loop (succs : Nat → List Nat) (ncomp : Nat)
    (hS : ∀ a b, b ∈ succs a → b < ncomp) :
    ∀ (vs : List Nat) (st : TarjanSt), (∀ v ∈ vs, v < ncomp) →
      TInv succs ncomp st [] → st.stack = [] →
      TInv succs ncomp (vs.foldl (fun st v =>
          if st.indices.getD v (-1) = -1 then scVisit succs (ncomp + 1) v st else st) st) [] ∧
      (vs.foldl (fun st v =>
          if st.indices.getD v (-1) = -1 then scVisit succs (ncomp + 1) v st else st) st).stack
        = [] ∧
      (∀ u, visitedV st u → visitedV (vs.foldl (fun st v =>
          if st.indices.getD v (-1) = -1 then scVisit succs (ncomp + 1) v st else st) st) u) ∧
      (∀ v ∈ vs, visitedV (vs.foldl (fun st v =>
          if st.indices.getD v (-1) = -1 then scVisit succs (ncomp + 1) v st else st) st) v) ∧
      (∃ ADD, (vs.foldl (fun st v =>
          if st.indices.getD v (-1) = -1 then scVisit succs (ncomp + 1) v st else st) st).sccs
        = st.sccs ++ ADD) := by
  intro vs
  induction vs with
  | nil =>
    intro st hvs hInv hstk
    exact ⟨hInv, hstk, fun u hu => hu, by rintro v ⟨⟩, ⟨[], by simp⟩⟩
  | cons v vs ih =>
    intro st hvs hInv hstk
    have hvlt : v < ncomp := hvs v (List.mem_cons_self v vs)
    have hvs2 : ∀ x ∈ vs, x < ncomp := fun x hx => hvs x (List.mem_cons_of_mem v hx)
    rw [List.foldl_cons]
    by_cases h1 : st.indices.getD v (-1) = -1
    · rw [if_pos h1]
      have hnv : ¬ visitedV st v := fun hc => hc h1
      have P := scVisit_spec succs ncomp hS (ncomp + 1) v st [] hInv hnv hvlt
        (by have := unvis_le ncomp st; omega)
      have hstk2 : (scVisit succs (ncomp + 1) v st).stack = [] := by
        rcases P.outcome with ⟨h, -, -⟩ | honv
        · rw [h, hstk]
        · exfalso
          obtain ⟨hlt, -⟩ := P.inv.completed v honv (by rintro ⟨⟩)
          obtain ⟨z, hz1, hz2, -⟩ := P.inv.low_cert v honv
          have hznv : ¬ visitedV st z := by
            obtain ⟨NEW, hN, hNf⟩ := P.stack_ext
            have hzmem : z ∈ (scVisit succs (ncomp + 1) v st).stack :=
              (P.inv.stack_iff z).mpr hz1
            rw [hN, hstk, List.append_nil] at hzmem
            exact hNf z hzmem
          have hK := P.postK z hz1 hznv
          obtain ⟨hltz, -⟩ := P.inv.completed z hz1 (by rintro ⟨⟩)
          omega
      obtain ⟨hI, hE, hM, hV, hA⟩ := ih (scVisit succs (ncomp + 1) v st) hvs2 P.inv hstk2
      refine ⟨hI, hE, ?_, ?_, ?_⟩
      · intro u hu
        exact hM u (P.frame_vis u hu)
      · intro x hx
        rcases List.mem_cons.mp hx with rfl | hx2
        · exact hM x P.vis_v
        · exact hV x hx2
      · obtain ⟨A1, hA1⟩ := P.sccs_ext
        obtain ⟨A2, hA2⟩ := hA
        exact ⟨A1 ++ A2, by rw [hA2, hA1, List.append_assoc]⟩
    · rw [if_neg h1]
      have hvisv : visitedV st v := h1
      obtain ⟨hI, hE, hM, hV, hA⟩ := ih st hvs2 hInv hstk
      refine ⟨hI, hE, hM, ?_, hA⟩
      intro x hx
      rcases List.mem_cons.mp hx with rfl | hx2
      · exact hM x hvisv
      · exact hV x hx2

lemma flatten_nodup_unique {α : Type} (L : List (List α)) (hnd : L.flatten.Nodup) :
    ∀ T1 ∈ L, ∀ T2 ∈ L, ∀ a, a ∈ T1 → a ∈ T2 → T1 = T2 := by
  induction L with
  | nil => rintro T1 ⟨⟩
  | cons B Lr ih =>
    rw [List.flatten_cons] at hnd
    have hndB := hnd.of_append_left
    have hndLr := hnd.of_append_right
    have hdisj := List.disjoint_of_nodup_append hnd
    intro T1 hT1 T2 hT2 a ha1 ha2
    rcases List.mem_cons.mp hT1 with rfl | h1
    · rcases List.mem_cons.mp hT2 with rfl | h2
      · rfl
      · exact absurd (List.mem_flatten.mpr ⟨T2, h2, ha2⟩) (hdisj ha1)
    · rcases List.mem_cons.mp hT2 with rfl | h2
      · exact absurd (List.mem_flatten.mpr ⟨T1, h1, ha1⟩) (hdisj ha2)
      · exact ih hndLr T1 h1 T2 h2 a ha1 ha2

lemma one_lt_length_of_two_mem {α : Type} (l : List α) (a b : α) (ha : a ∈ l) (hb : b ∈ l)
    (hab : a ≠ b) : 1 < l.length := by
  match l with
  | [] => cases ha
  | [x] =>
    rw [List.mem_singleton] at ha hb
    exact absurd (ha.trans hb.symm) hab
  | x :: y :: t => simp

lemma tarjanRun_correct (succs : Nat → List Nat) (ncomp : Nat)
    (hS : ∀ a b, b ∈ succs a → b < ncomp) :
    (∀ c, c < ncomp → ∃! S, S ∈ tarjanRun succs ncomp ∧ c ∈ S) ∧
    (∀ S ∈ tarjanRun succs ncomp, S ≠ [] ∧ ∀ u ∈ S, u < ncomp ∧
      (∀ w ∈ S, ReachFw (succsT succs) u w) ∧
      (∀ z, ReachFw (succsT succs) u z → ReachFw (succsT succs) z u → z ∈ S)) := by
  obtain ⟨hI, hE, hM, hV, hA⟩ := tarjanRun_loop succs ncomp hS (List.range ncomp)
    (tarjanInit ncomp) (fun v hv => List.mem_range.mp hv) (tarjanInit_inv succs ncomp) rfl
  constructor
  · intro c hc
    have hvisc := hV c (List.mem_range.mpr hc)
    rcases hI.visited_split c hvisc with hon | hasg
    · exfalso
      have := (hI.stack_iff c).mpr hon
      rw [hE] at this
      cases this
    · obtain ⟨S, hSmem, hcS⟩ := hasg
      refine ⟨S, ⟨hSmem, hcS⟩, ?_⟩
      rintro T ⟨hTmem, hcT⟩
      exact flatten_nodup_unique _ hI.flat_nodup T hTmem S hSmem c hcT hcS
  · intro S hSmem
    refine ⟨hI.sccs_ne S hSmem, ?_⟩
    intro u huS
    have hvisu := hI.assigned_vis u ⟨S, hSmem, huS⟩
    have hu_lt : u < ncomp := by
      have := visited_lt _ u hvisu
      rw [hI.len_idx] at this
      exact this
    exact ⟨hu_lt, hI.sccs_mut S hSmem u huS, hI.sccs_max S hSmem u huS⟩

def exFcE : Nat → Nat := fun f => if f < 2 then f else 0

def exOutE : Nat → List Nat := fun f =>
  if f = 0 then [1] else if f = 1 then [0] else []

example : tarjanRun (compSuccs 2 exFcE exOutE) 2 = [[1, 0]] := by decide

example : shownSccs (compSuccs 2 exFcE exOutE) 2 = [[0, 1]] := by decide

/-- C8: the scc query reports exactly the strongly connected components of
size above one of the component graph induced by file outgoing links with
self-loops excluded.  Over the successor map walked by the code
(`compSuccs`, i.e. files of a component, their outgoing links, mapped to
components): the computed SCC list contains every component below `ncomp`
in exactly one entry; each computed entry is nonempty and is exactly the
mutual-reachability class of each of its members; each printed (shown)
entry has size above one and again is exactly a mutual-reachability
class; and conversely every component mutually reachable with a distinct
component appears in some printed entry.  In particular SCCs of size one
are never printed. -/
theorem c8_scc_exact (n ncomp : Nat) (fc : Nat → Nat) (outgoing : Nat → List Nat)
    (hfc : ∀ f, fc f < ncomp) :
    (∀ c, c < ncomp →
      ∃! S, S ∈ tarjanRun (compSuccs n fc outgoing) ncomp ∧ c ∈ S) ∧
    (∀ S ∈ tarjanRun (compSuccs n fc outgoing) ncomp, S ≠ [] ∧ ∀ u ∈ S, u < ncomp ∧
      ∀ z, z ∈ S ↔ MutReach (compSuccs n fc outgoing) u z) ∧
    (∀ S ∈ shownSccs (compSuccs n fc outgoing) ncomp, 1 < S.length ∧
      ∀ u ∈ S, ∀ z, z ∈ S ↔ MutReach (compSuccs n fc outgoing) u z) ∧
    (∀ c z, c < ncomp → MutReach (compSuccs n fc outgoing) c z → z ≠ c →
      ∃ S ∈ shownSccs (compSuccs n fc outgoing) ncomp, c ∈ S) := by
  have hS : ∀ a b, b ∈ compSuccs n fc outgoing a → b < ncomp := by
    intro a b hb
    obtain ⟨f, -, rfl⟩ := List.mem_map.mp hb
    exact hfc f
  obtain ⟨hpart, hscc⟩ := tarjanRun_correct (compSuccs n fc outgoing) ncomp hS
  have hiff : ∀ S ∈ tarjanRun (compSuccs n fc outgoing) ncomp, ∀ u ∈ S, ∀ z,
      z ∈ S ↔ MutReach (compSuccs n fc outgoing) u z := by
    intro S hSm u hu z
    obtain ⟨-, hprops⟩ := hscc S hSm
    obtain ⟨-, hmut, hmax⟩ := hprops u hu
    constructor
    · intro hz
      obtain ⟨-, hmutz, -⟩ := hprops z hz
      exact ⟨hmut z hz, hmutz u hu⟩
    · rintro ⟨h1, h2⟩
      exact hmax z h1 h2
  have hshown : ∀ S, S ∈ shownSccs (compSuccs n fc outgoing) ncomp ↔
      ∃ T, T ∈ tarjanRun (compSuccs n fc outgoing) ncomp ∧ 1 < T.length ∧
        S = T.reverse := by
    intro S
    unfold shownSccs
    constructor
    · intro h
      obtain ⟨T, hT, rfl⟩ := List.mem_map.mp h
      obtain ⟨hT1, hT2⟩ := List.mem_filter.mp hT
      exact ⟨T, hT1, by simpa using hT2, rfl⟩
    · rintro ⟨T, hT1, hT2, rfl⟩
      exact List.mem_map.mpr ⟨T, List.mem_filter.mpr ⟨hT1, by simpa using hT2⟩, rfl⟩
  refine ⟨hpart, ?_, ?_, ?_⟩
  · intro S hSm
    exact ⟨(hscc S hSm).1, fun u hu => ⟨((hscc S hSm).2 u hu).1, hiff S hSm u hu⟩⟩
  · intro S hSm
    obtain ⟨T, hT1, hT2, rfl⟩ := (hshown S).mp hSm
    refine ⟨by simpa using hT2, ?_⟩
    intro u hu z
    rw [List.mem_reverse] at hu ⊢
    exact hiff T hT1 u hu z
  · intro c z hc hmz hzc
    obtain ⟨S, ⟨hSm, hcS⟩, -⟩ := hpart c hc
    have hzS : z ∈ S := (hiff S hSm c hcS z).mpr hmz
    have hlen : 1 < S.length := one_lt_length_of_two_mem S z c hzS hcS hzc
    refine ⟨S.reverse, (hshown S.reverse).mpr ⟨S, hSm, hlen, rfl⟩, ?_⟩
    rw [List.mem_reverse]
    exact hcS

/-- Witness for C8 at a concrete two-component cycle graph. -/
theorem c8_scc_exact_witness :
    (∀ f, exFcE f < 2) ∧
    (∀ c, c < 2 → ∃! S, S ∈ tarjanRun (compSuccs 2 exFcE exOutE) 2 ∧ c ∈ S) :=
  ⟨fun f => by unfold exFcE; split <;> omega,
   (c8_scc_exact 2 2 exFcE exOutE (fun f => by unfold exFcE; split <;> omega)).1⟩

-- sanity: triangle 0 -> 1 -> 2 -> 0 plus isolated 3
def t8succ : Nat → List Nat := fun v =>
  if v = 0 then [1] else if v = 1 then [2] else if v = 2 then [0] else []

example : tarjanRun t8succ 4 = [[2, 1, 0], [3]] := by decide
example : shownSccs t8succ 4 = [[0, 1, 2]] := by decide


end Cpdep
